import Mathlib

/-!
Verification of the job-run test-case analyzer and the GCS listing client.

The Lean definitions below are shallow embeddings of the Go source:
* `pkg/jobrunaggregator/jobruntestcaseanalyzer` — suite matching
  (`getTestStatus`), the minimum-required-passes checker
  (`CheckTestCase`, `updateTestCountsInSuite`,
  `addToTestSuiteFromSuiteNames`), the retry loop
  (`findJobRunsWithRetry`) and the fan-out collector
  (`GetRelatedJobRuns`);
* `pkg/jobrunaggregator/jobrunaggregatorlib/gcs_client.go` —
  `NextJobRunID`, `ReadJobRunFromGCS` and
  `ListJobRunNamesOlderThanFourHours`.

Machine integers are modelled as `Int`/`Nat` with explicit wrapping where
the Go code can overflow.  Fallible operations return `Option`/`Except`.
-/

/-! ## JUnit data model

The `junit` package structures used by the analyzer.  Only the fields the
analyzer reads or writes are modelled (`SystemOut`, `Duration` and the
skip fields do not affect any verified property and are omitted).
-/

/-- `junit.FailureOutput`: the failure information attached to a failed
test case.  Only the `Message` field matters here. -/
structure FailureOutput where
  message : String
  deriving Repr, DecidableEq

/-- `junit.TestCase`: a single test case with its optional failure
output (`nil` in Go is `none` here). -/
structure TestCase where
  name : String
  failureOutput : Option FailureOutput := none
  deriving Repr, DecidableEq

/-- `junit.TestSuite`: a named suite holding direct test cases and child
suites, together with the `NumTests`/`NumFailed` counters maintained by
`updateTestCountsInSuite`. -/
inductive TestSuite : Type where
  | mk : (name : String) → (numTests : Nat) → (numFailed : Nat) →
      (testCases : List TestCase) → (children : List TestSuite) → TestSuite

def TestSuite.name : TestSuite → String
  | .mk n _ _ _ _ => n

def TestSuite.numTests : TestSuite → Nat
  | .mk _ t _ _ _ => t

def TestSuite.numFailed : TestSuite → Nat
  | .mk _ _ f _ _ => f

def TestSuite.testCases : TestSuite → List TestCase
  | .mk _ _ _ cs _ => cs

def TestSuite.children : TestSuite → List TestSuite
  | .mk _ _ _ _ ch => ch

/-- `junit.TestSuites`: the top-level forest of suites parsed from one
job run's artifacts. -/
structure TestSuites where
  suites : List TestSuite

/-! ## Suite Matcher (`getTestStatus`) -/

/-- `testIdentifier`: an ordered chain of ancestor suite names plus the
leaf test name. -/
structure testIdentifier where
  testSuites : List String
  testName : String
  deriving Repr, DecidableEq

/-- `testStatus`: the verdict of the suite matcher. -/
inductive testStatus : Type where
  | testSkipped
  | testPassed
  | testFailed
  deriving Repr, DecidableEq

open testStatus

mutual

/-- `getTestStatus` from the analyzer: resolve `id.testSuites` against
the suite tree.  A name mismatch (or an empty path) is skipped; a
singleton path scans the direct test cases for an exact name match; a
longer path recurses into children whose name equals the next path
element, returning the first recursive verdict that is passed or
failed. -/
def getTestStatus (id : testIdentifier) : TestSuite → testStatus
  | .mk nm _ _ cases children =>
    match id.testSuites with
    | [] => testSkipped
    | s0 :: rest =>
      if s0 ≠ nm then testSkipped
      else
        match rest with
        | [] =>
          -- top level suite match, search for the test case
          match cases.find? (fun tc => tc.name = id.testName) with
          | some tc => if tc.failureOutput = none then testPassed else testFailed
          | none => testSkipped
        | _ :: _ =>
          -- search the next level: `next := id` with the path advanced by one
          getTestStatusChildren { id with testSuites := rest } children
termination_by ts => sizeOf ts

/-- The loop over `testSuite.Children` in `getTestStatus`: recurse into
each child whose name equals the head of the (already advanced) path;
the first recursive result that is passed or failed wins. -/
def getTestStatusChildren (next : testIdentifier) : List TestSuite → testStatus
  | [] => testSkipped
  | childSuite :: restChildren =>
    if (next.testSuites.head? = some childSuite.name) then
      match getTestStatus next childSuite with
      | testPassed => testPassed
      | testFailed => testFailed
      | testSkipped => getTestStatusChildren next restChildren
    else getTestStatusChildren next restChildren
termination_by cs => sizeOf cs

end

/-- The verdict characterization used to state the matcher claims: the
first element of the list that is passed or failed, and skipped when
there is none. -/
def firstPassOrFailed (l : List testStatus) : testStatus :=
  match l.find? (fun s => s ≠ testSkipped) with
  | some s => s
  | none => testSkipped

/-- Concrete tree from the spec example: root "install" with child
"network" containing the single case "dns-check" carrying `fo`. -/
def dnsTree (fo : Option FailureOutput) : TestSuite :=
  .mk "install" 0 0 [] [.mk "network" 0 0 [{ name := "dns-check", failureOutput := fo }] []]

lemma getTestStatusChildren_eq_firstPassOrFailed (next : testIdentifier)
    (children : List TestSuite) :
    getTestStatusChildren next children =
      firstPassOrFailed ((children.filter
        (fun c => next.testSuites.head? = some c.name)).map (getTestStatus next)) := by
  induction children with
  | nil => simp [getTestStatusChildren, firstPassOrFailed]
  | cons c cs ih =>
    rw [getTestStatusChildren, List.filter_cons]
    by_cases hg : next.testSuites.head? = some c.name
    · rw [if_pos hg, if_pos (by simpa using hg)]
      cases hst : getTestStatus next c with
      | testPassed => simp [firstPassOrFailed, List.find?, hst]
      | testFailed => simp [firstPassOrFailed, List.find?, hst]
      | testSkipped =>
        simp only [List.map_cons, firstPassOrFailed, List.find?, hst]
        simpa [firstPassOrFailed] using ih
    · rw [if_neg hg, if_neg (by simpa using hg)]
      exact ih

/-- C1: the suite matcher is a pure function of the identifier and the
suite tree.  A root-name mismatch is skipped; a singleton path scans the
direct test cases for an exact name match (failure info present is
failed, absent is passed, no match is skipped); a longer path recurses
only into children named like the second path element with the path
advanced by one, and the first recursive verdict that is passed or
failed wins, skipped when none is.  The concrete `install/network/
dns-check` examples behave as the spec states. -/
theorem getTestStatus_spec :
    (∀ (id : testIdentifier) (ts : TestSuite) (s0 : String) (rest : List String),
        id.testSuites = s0 :: rest → s0 ≠ ts.name →
        getTestStatus id ts = testSkipped)
  ∧ (∀ (t nm : String) (nt nf : Nat) (cases : List TestCase) (children : List TestSuite),
        getTestStatus ⟨[nm], t⟩ (.mk nm nt nf cases children) =
          match cases.find? (fun tc => tc.name = t) with
          | some tc => if tc.failureOutput = none then testPassed else testFailed
          | none => testSkipped)
  ∧ (∀ (t s0 s1 : String) (rest : List String) (nt nf : Nat) (cases : List TestCase)
        (children : List TestSuite),
        getTestStatus ⟨s0 :: s1 :: rest, t⟩ (.mk s0 nt nf cases children) =
          firstPassOrFailed ((children.filter (fun c => c.name = s1)).map
            (getTestStatus ⟨s1 :: rest, t⟩)))
  ∧ getTestStatus ⟨["install", "network"], "dns-check"⟩ (dnsTree (some ⟨"boom"⟩)) = testFailed
  ∧ getTestStatus ⟨["install", "network"], "dns-check"⟩ (dnsTree none) = testPassed
  ∧ (∀ (nt nf : Nat) (cases : List TestCase) (children : List TestSuite),
        getTestStatus ⟨["install", "network"], "dns-check"⟩ (.mk "other" nt nf cases children)
          = testSkipped) := by
  refine ⟨?_, ?_, ?_, ?_, ?_, ?_⟩
  · intro id ts s0 rest hpath hne
    obtain ⟨suites, tname⟩ := id
    cases ts with
    | mk nm a b cs ch =>
      simp only [TestSuite.name] at hne
      simp only at hpath
      subst hpath
      simp [getTestStatus, hne]
  · intro t nm nt nf cases children
    simp [getTestStatus]
  · intro t s0 s1 rest nt nf cases children
    rw [getTestStatus]
    simp only [ne_eq, not_true_eq_false, if_false]
    rw [getTestStatusChildren_eq_firstPassOrFailed]
    congr 2
    apply List.filter_congr
    intro c _
    simp [eq_comm]
  · simp [getTestStatus, getTestStatusChildren, dnsTree, TestSuite.name]
  · simp [getTestStatus, getTestStatusChildren, dnsTree, TestSuite.name]
  · intro nt nf cases children
    simp [getTestStatus]

/-- Witness for C1 at concrete inputs: a tree rooted "other" is skipped
for the path whose first element is "install". -/
theorem getTestStatus_spec_witness :
    getTestStatus ⟨["install"], "t"⟩ (.mk "other" 0 0 [] []) = testSkipped :=
  getTestStatus_spec.1 ⟨["install"], "t"⟩ (.mk "other" 0 0 [] []) "install" [] rfl
    (by simp [TestSuite.name])

/-- C10: an identifier with an empty ancestor-suite path is always
skipped, even when a test case with exactly the leaf name exists among
the tree's direct test cases. -/
theorem getTestStatus_empty_suites :
    (∀ (t : String) (ts : TestSuite), getTestStatus ⟨[], t⟩ ts = testSkipped)
  ∧ getTestStatus ⟨[], "x"⟩ (.mk "root" 0 0 [{ name := "x" }] []) = testSkipped := by
  constructor
  · intro t ts
    cases ts with
    | mk nm a b cs ch => simp [getTestStatus]
  · simp [getTestStatus]


/-! ## Threshold Checker (`minimumRequiredPassesTestCaseChecker`) -/

/-- `jobrunaggregatorapi.JobRunInfo` as used by the checker: only the
three accessors called by `addTestResultToDetails` are modelled. -/
structure JobRunInfo where
  jobRunID : String
  humanURL : String
  gcsArtifactURL : String
  deriving Repr, DecidableEq

/-- One evidence record (`TestCasePass`/`TestCaseFailure`/`TestCaseSkip`
all have this shape). -/
structure TestCaseReference where
  jobRunID : String
  humanURL : String
  gcsArtifactURL : String
  deriving Repr, DecidableEq

/-- `jobrunaggregatorlib.TestCaseDetails`: the evidence buckets.  The
`TestSuiteName` and `Summary` strings only feed the YAML `SystemOut`
blob, which no verified property inspects; they are omitted. -/
structure TestCaseDetails where
  name : String
  passes : List TestCaseReference
  failures : List TestCaseReference
  skips : List TestCaseReference
  deriving Repr, DecidableEq

/-- `minimumRequiredPassesTestCaseChecker`. -/
structure minimumRequiredPassesTestCaseChecker where
  id : testIdentifier
  testNameSuffix : String
  requiredNumberOfPasses : Int
  deriving Repr, DecidableEq

/-- `addTestResultToDetails`: append the run's reference to the bucket
matching the status (the `default` branch of the Go switch is the skip
bucket). -/
def addTestResultToDetails (currDetails : TestCaseDetails) (jobRun : JobRunInfo)
    (status : testStatus) : TestCaseDetails :=
  match status with
  | testPassed =>
    { currDetails with passes := currDetails.passes ++
        [{ jobRunID := jobRun.jobRunID, humanURL := jobRun.humanURL,
           gcsArtifactURL := jobRun.gcsArtifactURL }] }
  | testFailed =>
    { currDetails with failures := currDetails.failures ++
        [{ jobRunID := jobRun.jobRunID, humanURL := jobRun.humanURL,
           gcsArtifactURL := jobRun.gcsArtifactURL }] }
  | testSkipped =>
    { currDetails with skips := currDetails.skips ++
        [{ jobRunID := jobRun.jobRunID, humanURL := jobRun.humanURL,
           gcsArtifactURL := jobRun.gcsArtifactURL }] }

/-- `addToTestSuiteFromSuiteNames`: build the chain of wrapping suites
named by `suiteNames`; the innermost suite receives `bottomCases` (the
Go version mutates `topSuite` and appends the test case to the returned
bottom suite — this functional rendering returns the test-case list and
child list of the top suite). -/
def addToTestSuiteFromSuiteNames (suiteNames : List String) (bottomCases : List TestCase) :
    List TestCase × List TestSuite :=
  match suiteNames with
  | [] => (bottomCases, [])
  | suiteName :: rest =>
    ([], [TestSuite.mk suiteName 0 0
      (addToTestSuiteFromSuiteNames rest bottomCases).1
      (addToTestSuiteFromSuiteNames rest bottomCases).2])

def sumNumTests (l : List TestSuite) : Nat := (l.map TestSuite.numTests).sum

def sumNumFailed (l : List TestSuite) : Nat := (l.map TestSuite.numFailed).sum

mutual

/-- `updateTestCountsInSuite`: recompute `NumTests`/`NumFailed` bottom-up;
a suite counts its own test cases (failed = those with failure output)
plus the recomputed counts of all children. -/
def updateTestCountsInSuite : TestSuite → TestSuite
  | .mk nm _ _ cases children =>
    let updated := updateTestCountsList children
    TestSuite.mk nm
      (cases.length + sumNumTests updated)
      ((cases.filter (fun t => t.failureOutput.isSome)).length + sumNumFailed updated)
      cases updated
termination_by s => sizeOf s

/-- The `for _, child := range suite.Children` loop of
`updateTestCountsInSuite`. -/
def updateTestCountsList : List TestSuite → List TestSuite
  | [] => []
  | c :: rest => updateTestCountsInSuite c :: updateTestCountsList rest
termination_by l => sizeOf l

end

mutual

/-- The invariant claimed for the recomputed counts: every node's
`numTests` is its own case count plus the sum of its children's
`numTests`, and likewise for `numFailed`. -/
def countsConsistent : TestSuite → Bool
  | .mk _ nt nf cases children =>
    (nt == cases.length + sumNumTests children) &&
    ((nf == (cases.filter (fun t => t.failureOutput.isSome)).length + sumNumFailed children) &&
      countsConsistentList children)
termination_by s => sizeOf s

def countsConsistentList : List TestSuite → Bool
  | [] => true
  | c :: rest => countsConsistent c && countsConsistentList rest
termination_by l => sizeOf l

end

/-- The `for _, testSuite := range testSuites.Suites` loop of
`CheckTestCase`: the status of one run is the first passed/failed
verdict over its top-level suites, and skipped when no suite produces
one (the Go loop leaves `status` at the last computed value, which is
skipped whenever the `found` break was not taken). -/
def runSuitesStatus (id : testIdentifier) : List TestSuite → testStatus
  | [] => testSkipped
  | ts :: rest =>
    match getTestStatus id ts with
    | testPassed => testPassed
    | testFailed => testFailed
    | testSkipped => runSuitesStatus id rest

/-- The `for jobRun, testSuites := range jobRunJunits` loop of
`CheckTestCase`: accumulate `successCount` and the evidence details. -/
def checkTestCaseLoop (r : minimumRequiredPassesTestCaseChecker) :
    List (JobRunInfo × TestSuites) → Nat → TestCaseDetails → Nat × TestCaseDetails
  | [], successCount, currDetails => (successCount, currDetails)
  | (jobRun, testSuites) :: rest, successCount, currDetails =>
    let status := runSuitesStatus r.id testSuites.suites
    let successCount := if status = testPassed then successCount + 1 else successCount
    checkTestCaseLoop r rest successCount (addTestResultToDetails currDetails jobRun status)

/-- A single quote character, written via an escape. -/
def singleQuote : String := "\x27"

/-- The fixed top suite plus the wrapping chain built by
`CheckTestCase` before the counts are updated. -/
def buildCheckerSuite (suiteNames : List String) (testCase : TestCase) : TestSuite :=
  TestSuite.mk "minimum-required-passes-checker" 0 0
    (addToTestSuiteFromSuiteNames suiteNames [testCase]).1
    (addToTestSuiteFromSuiteNames suiteNames [testCase]).2

/-- `CheckTestCase`: synthesize the verdict suite.  The Go map is
modelled as an association list (iteration order does not affect the
success count or the synthesized failure output).  `Duration` and the
YAML `SystemOut` blob are not modelled; `yaml.Marshal` of the details
struct cannot fail, so the `return nil` guard is not reachable. -/
def CheckTestCase (r : minimumRequiredPassesTestCaseChecker)
    (jobRunJunits : List (JobRunInfo × TestSuites)) : TestSuite :=
  let testName :=
    "test " ++ singleQuote ++ r.id.testName ++ singleQuote ++
      " has required number of successful passes across payload jobs" ++
      (if r.testNameSuffix.length > 0 then " for " ++ r.testNameSuffix else "")
  let initDetails : TestCaseDetails :=
    { name := r.id.testName, passes := [], failures := [], skips := [] }
  let successCount := (checkTestCaseLoop r jobRunJunits 0 initDetails).1
  let testCase : TestCase :=
    { name := testName,
      failureOutput :=
        if (successCount : Int) < r.requiredNumberOfPasses then
          some { message := "required minimum successful count " ++
            toString r.requiredNumberOfPasses ++ ", got " ++ toString successCount }
        else none }
  updateTestCountsInSuite (buildCheckerSuite r.id.testSuites testCase)

lemma sizeOf_children_lt (nm : String) (a b : Nat) (cases : List TestCase)
    (children : List TestSuite) :
    sizeOf children < sizeOf (TestSuite.mk nm a b cases children) := by
  simp [TestSuite.mk.sizeOf_spec]

lemma updateCounts_aux (n : Nat) :
    (∀ s : TestSuite, sizeOf s ≤ n → countsConsistent (updateTestCountsInSuite s) = true) ∧
    (∀ l : List TestSuite, sizeOf l ≤ n →
      countsConsistentList (updateTestCountsList l) = true) := by
  induction n with
  | zero =>
    constructor
    · intro s hs
      cases s with
      | mk nm a b cs ch =>
        simp [TestSuite.mk.sizeOf_spec] at hs
    · intro l hl
      cases l with
      | nil => rw [List.nil.sizeOf_spec] at hl; omega
      | cons c rest => rw [List.cons.sizeOf_spec] at hl; omega
  | succ n ih =>
    constructor
    · intro s hs
      cases s with
      | mk nm a b cs ch =>
        rw [updateTestCountsInSuite, countsConsistent]
        simp only [beq_self_eq_true, Bool.true_and]
        refine ih.2 ch ?_
        have := sizeOf_children_lt nm a b cs ch
        omega
    · intro l hl
      cases l with
      | nil => rw [updateTestCountsList, countsConsistentList]
      | cons c rest =>
        rw [updateTestCountsList, countsConsistentList, Bool.and_eq_true]
        have hsz : sizeOf (c :: rest) = 1 + sizeOf c + sizeOf rest :=
          List.cons.sizeOf_spec c rest
        exact ⟨ih.1 c (by omega), ih.2 rest (by omega)⟩

/-- C9: after `updateTestCountsInSuite`, every node of the tree (in
particular of the synthetic tree built by `CheckTestCase`) has
`numTests` equal to its own case count plus the sum of its children's
recomputed `numTests`, and `numFailed` equal to its failing case count
plus the sum of the children's `numFailed`. -/
theorem updateTestCountsInSuite_consistent :
    (∀ s : TestSuite, countsConsistent (updateTestCountsInSuite s) = true)
  ∧ (∀ (r : minimumRequiredPassesTestCaseChecker)
        (jobRunJunits : List (JobRunInfo × TestSuites)),
      countsConsistent (CheckTestCase r jobRunJunits) = true) := by
  have main : ∀ s : TestSuite, countsConsistent (updateTestCountsInSuite s) = true :=
    fun s => (updateCounts_aux (sizeOf s)).1 s (le_refl _)
  refine ⟨main, ?_⟩
  intro r js
  rw [CheckTestCase]
  exact main _

/-- Descend to the test case that `CheckTestCase` appended to the bottom
suite of the wrapping chain: follow the first child while children
exist, then take the first direct test case. -/
def bottomTestCase : TestSuite → Option TestCase
  | .mk _ _ _ cases children =>
    match children with
    | [] => cases.head?
    | c :: _ => bottomTestCase c
termination_by s => sizeOf s

lemma bottomTestCase_update_aux (n : Nat) :
    ∀ s : TestSuite, sizeOf s ≤ n →
      bottomTestCase (updateTestCountsInSuite s) = bottomTestCase s := by
  induction n with
  | zero =>
    intro s hs
    cases s with
    | mk nm a b cs ch => rw [TestSuite.mk.sizeOf_spec] at hs; omega
  | succ n ih =>
    intro s hs
    cases s with
    | mk nm a b cs ch =>
      rw [updateTestCountsInSuite]
      cases ch with
      | nil => rw [updateTestCountsList]; simp [bottomTestCase]
      | cons c rest =>
        rw [updateTestCountsList]
        simp only [bottomTestCase]
        refine ih c ?_
        rw [TestSuite.mk.sizeOf_spec, List.cons.sizeOf_spec] at hs
        omega

lemma bottomTestCase_update (s : TestSuite) :
    bottomTestCase (updateTestCountsInSuite s) = bottomTestCase s :=
  bottomTestCase_update_aux (sizeOf s) s (le_refl _)

lemma bottomTestCase_addTo (tc : TestCase) :
    ∀ (names : List String) (nm : String) (a b : Nat),
      bottomTestCase (TestSuite.mk nm a b
        (addToTestSuiteFromSuiteNames names [tc]).1
        (addToTestSuiteFromSuiteNames names [tc]).2) = some tc := by
  intro names
  induction names with
  | nil =>
    intro nm a b
    simp [addToTestSuiteFromSuiteNames, bottomTestCase]
  | cons s rest ih =>
    intro nm a b
    simp only [addToTestSuiteFromSuiteNames, bottomTestCase]
    exact ih s 0 0

lemma bottomTestCase_update_build (names : List String) (tc : TestCase) :
    bottomTestCase (updateTestCountsInSuite (buildCheckerSuite names tc)) = some tc := by
  rw [bottomTestCase_update, buildCheckerSuite]
  exact bottomTestCase_addTo tc names _ 0 0

lemma checkTestCaseLoop_count (r : minimumRequiredPassesTestCaseChecker) :
    ∀ (entries : List (JobRunInfo × TestSuites)) (k : Nat) (d : TestCaseDetails),
      (checkTestCaseLoop r entries k d).1 =
        k + (entries.filter
          (fun p => runSuitesStatus r.id p.2.suites = testPassed)).length := by
  intro entries
  induction entries with
  | nil => intro k d; simp [checkTestCaseLoop]
  | cons e rest ih =>
    intro k d
    obtain ⟨jobRun, testSuites⟩ := e
    rw [checkTestCaseLoop, List.filter_cons]
    by_cases hp : runSuitesStatus r.id testSuites.suites = testPassed
    · rw [if_pos hp, if_pos (by simpa using hp)]
      rw [ih]
      simp
      omega
    · rw [if_neg hp, if_neg (by simpa using hp)]
      rw [ih]

/-- Example inputs for the threshold-checker claim: minimum 3, a suite
path of one name with leaf test "t". -/
def exampleChecker3 : minimumRequiredPassesTestCaseChecker :=
  { id := { testSuites := ["s"], testName := "t" }, testNameSuffix := "",
    requiredNumberOfPasses := 3 }

def examplePassSuite : TestSuite := .mk "s" 0 0 [{ name := "t" }] []

def exampleFailSuite : TestSuite :=
  .mk "s" 0 0 [{ name := "t", failureOutput := some { message := "x" } }] []

def exampleRunsTwoPassed : List (JobRunInfo × TestSuites) :=
  [(⟨"1", "", ""⟩, ⟨[examplePassSuite]⟩), (⟨"2", "", ""⟩, ⟨[examplePassSuite]⟩),
   (⟨"3", "", ""⟩, ⟨[exampleFailSuite]⟩)]

def exampleRunsThreePassed : List (JobRunInfo × TestSuites) :=
  [(⟨"1", "", ""⟩, ⟨[examplePassSuite]⟩), (⟨"2", "", ""⟩, ⟨[examplePassSuite]⟩),
   (⟨"3", "", ""⟩, ⟨[examplePassSuite]⟩)]

/-- The number of runs whose forest verdict is passed — the
characterization of `successCount` used to state the checker claim. -/
def passedCount (id : testIdentifier) (js : List (JobRunInfo × TestSuites)) : Nat :=
  (js.filter (fun p => runSuitesStatus id p.2.suites = testPassed)).length

lemma CheckTestCase_failureOutput (r : minimumRequiredPassesTestCaseChecker)
    (jobRunJunits : List (JobRunInfo × TestSuites)) :
    ∃ tc, bottomTestCase (CheckTestCase r jobRunJunits) = some tc ∧
      tc.failureOutput =
        (if ((passedCount r.id jobRunJunits : Int) < r.requiredNumberOfPasses) then
            some { message := "required minimum successful count " ++
              toString r.requiredNumberOfPasses ++ ", got " ++
              toString (passedCount r.id jobRunJunits) }
          else none) := by
  rw [CheckTestCase, bottomTestCase_update_build]
  refine ⟨_, rfl, ?_⟩
  simp only [passedCount]
  rw [checkTestCaseLoop_count]
  simp

/-- C2: the checker counts as successes exactly the runs whose forest
verdict (first passed/failed over the top-level suites) is passed, and
the synthesized test case carries a failure output with message
`required minimum successful count %d, got %d` exactly when the success
count is below the required minimum, and no failure output otherwise.
With minimum 3 and exactly 2 passed runs the message is exactly
`required minimum successful count 3, got 2`; with 3 passed runs there
is no failure output. -/
theorem CheckTestCase_spec :
    (∀ (r : minimumRequiredPassesTestCaseChecker)
        (jobRunJunits : List (JobRunInfo × TestSuites)),
      ∃ tc, bottomTestCase (CheckTestCase r jobRunJunits) = some tc ∧
        tc.failureOutput =
          (if ((passedCount r.id jobRunJunits : Int) < r.requiredNumberOfPasses) then
              some { message := "required minimum successful count " ++
                toString r.requiredNumberOfPasses ++ ", got " ++
                toString (passedCount r.id jobRunJunits) }
            else none))
  ∧ (bottomTestCase (CheckTestCase exampleChecker3 exampleRunsTwoPassed)).map
      TestCase.failureOutput =
      some (some { message := "required minimum successful count 3, got 2" })
  ∧ (bottomTestCase (CheckTestCase exampleChecker3 exampleRunsThreePassed)).map
      TestCase.failureOutput = some none := by
  refine ⟨CheckTestCase_failureOutput, ?_, ?_⟩
  · obtain ⟨tc, hb, hfo⟩ := CheckTestCase_failureOutput exampleChecker3 exampleRunsTwoPassed
    have h2 : passedCount exampleChecker3.id exampleRunsTwoPassed = 2 := by
      simp [passedCount, exampleChecker3, exampleRunsTwoPassed, examplePassSuite,
        exampleFailSuite, runSuitesStatus, getTestStatus]
    rw [hb]
    rw [h2] at hfo
    simp only [exampleChecker3] at hfo
    rw [if_pos (by decide)] at hfo
    simp only [Option.map]
    rw [hfo]
    congr 2
  · obtain ⟨tc, hb, hfo⟩ := CheckTestCase_failureOutput exampleChecker3 exampleRunsThreePassed
    have h3 : passedCount exampleChecker3.id exampleRunsThreePassed = 3 := by
      simp [passedCount, exampleChecker3, exampleRunsThreePassed, examplePassSuite,
        runSuitesStatus, getTestStatus]
    rw [hb]
    rw [h3] at hfo
    simp only [exampleChecker3] at hfo
    rw [if_neg (by decide)] at hfo
    simp only [Option.map]
    rw [hfo]

/-! ## Job Run Locator retry loop (`findJobRunsWithRetry`) -/

/-- `JobRunTestCaseAnalyzerOptions.findJobRunsWithRetry`: repeatedly
invoke `jobRunLocator.FindRelatedJobs` (modelled as `attempt k` for the
k-th invocation, 0-based).  The Go loop keeps `errorsInARow`, returns
the error when the check `errorsInARow > 20` fires (the check precedes
the increment), and otherwise sleeps and retries; success returns the
runs at once.  Here `left = 21 - errorsInARow` counts the remaining
allowed failures, so the give-up check `errorsInARow > 20` is
`left = 0`.  The second component of the result is the number of
attempts made.  The inter-attempt sleep and context cancellation are
not modelled (both claims are about runs without cancellation). -/
def findJobRunsWithRetryGo (attempt : Nat → Except String (List JobRunInfo)) :
    Nat → Nat → (Except String (List JobRunInfo)) × Nat
  | left, k =>
    match attempt k with
    | .ok jobRuns => (.ok jobRuns, k + 1)
    | .error e =>
      match left with
      | 0 => (.error e, k + 1)
      | left' + 1 => findJobRunsWithRetryGo attempt left' (k + 1)

def findJobRunsWithRetry (attempt : Nat → Except String (List JobRunInfo)) :
    (Except String (List JobRunInfo)) × Nat :=
  findJobRunsWithRetryGo attempt 21 0

lemma findJobRunsWithRetryGo_all_errors
    (attempt : Nat → Except String (List JobRunInfo)) :
    ∀ (left k : Nat), (∀ i, i ≤ left → ∃ e, attempt (k + i) = Except.error e) →
      ∃ e, attempt (k + left) = Except.error e ∧
        findJobRunsWithRetryGo attempt left k = (Except.error e, k + left + 1) := by
  intro left
  induction left with
  | zero =>
    intro k h
    obtain ⟨e, he⟩ := h 0 (le_refl _)
    rw [Nat.add_zero] at he
    exact ⟨e, by rw [Nat.add_zero]; exact he, by rw [findJobRunsWithRetryGo, he]⟩
  | succ left' ih =>
    intro k h
    obtain ⟨e0, he0⟩ := h 0 (Nat.zero_le _)
    rw [Nat.add_zero] at he0
    obtain ⟨e, he, hrun⟩ := ih (k + 1) (fun i hi => by
      have := h (i + 1) (by omega)
      simpa [Nat.add_assoc, Nat.add_comm 1 i] using this)
    refine ⟨e, ?_, ?_⟩
    · rw [show k + (left' + 1) = k + 1 + left' by omega]
      exact he
    · rw [findJobRunsWithRetryGo, he0]
      show findJobRunsWithRetryGo attempt left' (k + 1) =
        (Except.error e, k + (left' + 1) + 1)
      rw [hrun]
      congr 1
      omega

lemma findJobRunsWithRetryGo_success
    (attempt : Nat → Except String (List JobRunInfo)) (runs : List JobRunInfo) :
    ∀ (j left k : Nat), j ≤ left →
      (∀ i, i < j → ∃ e, attempt (k + i) = Except.error e) →
      attempt (k + j) = Except.ok runs →
      findJobRunsWithRetryGo attempt left k = (Except.ok runs, k + j + 1) := by
  intro j
  induction j with
  | zero =>
    intro left k _ _ hok
    rw [Nat.add_zero] at hok
    rw [findJobRunsWithRetryGo, hok, Nat.add_zero]
  | succ j' ih =>
    intro left k hle herr hok
    obtain ⟨e0, he0⟩ := herr 0 (Nat.succ_pos _)
    rw [Nat.add_zero] at he0
    match left, hle with
    | left'' + 1, _ =>
      have hrec := ih left'' (k + 1) (by omega)
        (fun i hi => by
          have := herr (i + 1) (by omega)
          simpa [Nat.add_assoc, Nat.add_comm 1 i] using this)
        (by rw [show k + 1 + j' = k + (j' + 1) by omega]; exact hok)
      rw [findJobRunsWithRetryGo, he0]
      show findJobRunsWithRetryGo attempt left'' (k + 1) =
        (Except.ok runs, k + (j' + 1) + 1)
      rw [hrec]
      congr 1
      omega

/-- C3 counterexample: a locator failing on every attempt makes the
loop return the error only after the 22nd attempt — the claimed
"21 consecutive failures, no 22nd attempt" is false on the code, which
checks `errorsInARow > 20` before incrementing. -/
theorem findJobRunsWithRetry_counterexample :
    (findJobRunsWithRetry (fun _ => Except.error "boom")).1 = Except.error "boom"
    ∧ (findJobRunsWithRetry (fun _ => Except.error "boom")).2 = 22
    ∧ (findJobRunsWithRetry (fun _ => Except.error "boom")).2 ≠ 21 := by
  refine ⟨rfl, rfl, by decide⟩

/-- C3 (amended): a locator that fails on every attempt makes the retry
loop return the error of the 22nd attempt, after exactly 22 attempts and
no 23rd; a locator that succeeds on attempt 5 after 4 failures returns
the found runs with exactly 5 attempts and no error. -/
theorem findJobRunsWithRetry_spec :
    (∀ attempt : Nat → Except String (List JobRunInfo),
      (∀ k, k ≤ 21 → ∃ e, attempt k = Except.error e) →
      ∃ e, attempt 21 = Except.error e ∧
        findJobRunsWithRetry attempt = (Except.error e, 22))
  ∧ (∀ (attempt : Nat → Except String (List JobRunInfo)) (runs : List JobRunInfo),
      (∀ k, k < 4 → ∃ e, attempt k = Except.error e) →
      attempt 4 = Except.ok runs →
      findJobRunsWithRetry attempt = (Except.ok runs, 5)) := by
  constructor
  · intro attempt h
    obtain ⟨e, he, hrun⟩ := findJobRunsWithRetryGo_all_errors attempt 21 0
      (fun i hi => by simpa using h i hi)
    exact ⟨e, by simpa using he, by rw [findJobRunsWithRetry, hrun]⟩
  · intro attempt runs herr hok
    rw [findJobRunsWithRetry]
    have := findJobRunsWithRetryGo_success attempt runs 4 21 0 (by omega)
      (fun i hi => by simpa using herr i hi) (by simpa using hok)
    rw [this]

/-- Witness for C3 at concrete locators: all-failing gives the error
after 22 attempts; failing four times then succeeding gives the runs
after 5 attempts. -/
theorem findJobRunsWithRetry_spec_witness :
    findJobRunsWithRetry (fun _ => Except.error "x") = (Except.error "x", 22)
    ∧ findJobRunsWithRetry
        (fun k => if k < 4 then Except.error "x" else Except.ok []) = (Except.ok [], 5) := by
  constructor
  · obtain ⟨e, he, hrun⟩ := findJobRunsWithRetry_spec.1 (fun _ => Except.error "x")
      (fun k _ => ⟨"x", rfl⟩)
    have he' : "x" = e := by simpa [Except.error.injEq] using he
    rw [← he'] at hrun
    exact hrun
  · exact findJobRunsWithRetry_spec.2 (fun k => if k < 4 then Except.error "x" else Except.ok [])
      [] (fun k hk => ⟨"x", by simp [hk]⟩) (by simp)

/-! ## Fan-out Collector (`GetRelatedJobRuns`) -/

/-- `jobrunaggregatorapi.JobRow` as the collector uses it (only the job
name matters to the fan-out logic). -/
structure JobRow where
  jobName : String
  deriving Repr, DecidableEq

/-- `JobRunTestCaseAnalyzerOptions.GetRelatedJobRuns`: one goroutine per
job runs `findJobRunsWithRetry` and sends its runs to a buffered result
channel only when it returned no error; after the WaitGroup join the
channel is drained and the outer context is checked once.  The
goroutine fan-out is sequentialized here in job order (Go's channel
arrival order is a nondeterministic interleaving of the same per-job
lists; the claims are about which runs are collected and when an error
is returned, neither of which depends on that order).  `locate job`
models the per-job `findJobRunsWithRetry` outcome, `cancelled` the
state of the outer context at the final check, and `getJobs` the
`jobGetter.GetJobs` result. -/
def GetRelatedJobRuns (cancelled : Bool) (getJobs : Except String (List JobRow))
    (locate : JobRow → Except String (List JobRunInfo)) :
    Except String (List JobRunInfo) :=
  match getJobs with
  | .error e => .error ("failed to get related jobs: " ++ e)
  | .ok jobs =>
    let jobRunsToReturn := (jobs.filterMap (fun job => (locate job).toOption)).flatten
    if cancelled then .error "context canceled" else .ok jobRunsToReturn

def jobRowA : JobRow := { jobName := "A" }
def jobRowB : JobRow := { jobName := "B" }
def jobRowC : JobRow := { jobName := "C" }

/-- Locator for the concrete fan-out example: job B errors, the others
find one run each. -/
def exampleLocate (j : JobRow) : Except String (List JobRunInfo) :=
  if j.jobName = "B" then Except.error "locator failed"
  else Except.ok [{ jobRunID := j.jobName ++ "-run", humanURL := "", gcsArtifactURL := "" }]

/-- C4: with the candidate jobs in hand and the outer context not
cancelled, the collector returns a nil error and exactly the
concatenation of the run lists of the locator invocations that
succeeded — an erroring job contributes nothing and its error is
swallowed; an error is returned if and only if the outer context was
cancelled at the post-join check.  For jobs {A, B, C} with B's locator
erroring, the result is A's and C's runs with no error. -/
theorem GetRelatedJobRuns_spec :
    (∀ (jobs : List JobRow) (locate : JobRow → Except String (List JobRunInfo)),
      GetRelatedJobRuns false (Except.ok jobs) locate =
        Except.ok ((jobs.filterMap (fun job => (locate job).toOption)).flatten))
  ∧ (∀ (cancelled : Bool) (jobs : List JobRow)
        (locate : JobRow → Except String (List JobRunInfo)),
      (∃ e, GetRelatedJobRuns cancelled (Except.ok jobs) locate = Except.error e) ↔
        cancelled = true)
  ∧ GetRelatedJobRuns false (Except.ok [jobRowA, jobRowB, jobRowC]) exampleLocate =
      Except.ok [{ jobRunID := "A-run", humanURL := "", gcsArtifactURL := "" },
                 { jobRunID := "C-run", humanURL := "", gcsArtifactURL := "" }] := by
  refine ⟨?_, ?_, ?_⟩
  · intro jobs locate
    rw [GetRelatedJobRuns]
    rfl
  · intro cancelled jobs locate
    cases cancelled with
    | false => simp [GetRelatedJobRuns]
    | true => simp [GetRelatedJobRuns]
  · rfl

/-- Witness for C4: with a cancelled outer context the collector
returns an error even when every locator succeeded. -/
theorem GetRelatedJobRuns_spec_witness :
    ∃ e, GetRelatedJobRuns true (Except.ok [jobRowA]) (fun _ => Except.ok []) =
      Except.error e :=
  (GetRelatedJobRuns_spec.2.1 true [jobRowA] (fun _ => Except.ok [])).mpr rfl

/-! ## `NextJobRunID` and the run-identifier arithmetic -/

/-- ASCII decimal digit test (Go `strconv` accepts exactly `0`-`9` in
base 10). -/
def isDecimalDigit (c : Char) : Bool := 48 ≤ c.toNat && c.toNat ≤ 57

/-- The digits-to-value accumulation of `strconv.ParseUint(s, 10, 64)`;
`none` on an empty or non-digit input.  The `uint64` overflow error of
`ParseUint` is subsumed by the signed range check in `parseInt64` (both
make `ParseInt` return an error). -/
def parseUintDigits (cs : List Char) : Option Nat :=
  if cs = [] then none
  else if cs.all isDecimalDigit then
    some (cs.foldl (fun a c => a * 10 + (c.toNat - 48)) 0)
  else none

/-- `strconv.ParseInt(s, 10, 64)`: optional sign, decimal digits,
signed 64-bit range check (`-2^63 ≤ v ≤ 2^63-1`; the negative branch
admits magnitude `2^63`). -/
def parseInt64 (s : String) : Option Int :=
  match s.data with
  | [] => none
  | c :: rest =>
    if c = '-' then
      match parseUintDigits rest with
      | none => none
      | some n => if n > 2 ^ 63 then none else some (-(n : Int))
    else if c = '+' then
      match parseUintDigits rest with
      | none => none
      | some n => if n ≥ 2 ^ 63 then none else some ((n : Int))
    else
      match parseUintDigits (c :: rest) with
      | none => none
      | some n => if n ≥ 2 ^ 63 then none else some ((n : Int))

/-- Two's-complement wrap-around of Go's `int64` addition. -/
def wrapInt64 (x : Int) : Int := (x + 2 ^ 63) % 2 ^ 64 - 2 ^ 63

/-- `NextJobRunID`: empty id is "0"; otherwise parse as base-10 int64
(Go panics on a parse error — modelled as `none`) and render `value+1`
(Go's `+` wraps int64) in decimal. -/
def NextJobRunID (curr : String) : Option String :=
  if curr.length = 0 then some "0"
  else
    match parseInt64 curr with
    | none => none
    | some idAsInt => some (toString (wrapInt64 (idAsInt + 1)))

/-- The numeric value of a decimal digit string — the `int(s)` of the
claim. -/
def decimalValue (s : String) : Nat :=
  s.data.foldl (fun a c => a * 10 + (c.toNat - 48)) 0

/-- C5 counterexample: at the largest int64 the Go increment wraps, so
`NextJobRunID` returns the negative int64 minimum instead of the
claimed `int(s)+1`. -/
theorem NextJobRunID_counterexample :
    NextJobRunID "9223372036854775807" = some "-9223372036854775808"
    ∧ NextJobRunID "9223372036854775807" ≠ some "9223372036854775808" := by
  constructor
  · decide
  · decide

/-- C5 (amended): `NextJobRunID("")` is `"0"`; for every non-empty,
unsigned decimal digit string whose value `v` satisfies `v+1 < 2^63`,
the result is `v+1` rendered in decimal without leading zeros; a string
`ParseInt` rejects (non-numeric, or numeric but out of int64 range)
makes the whole operation fail (Go panics) instead of returning a
value.  At exactly `v = 2^63-1` the increment wraps (see the
counterexample). -/
theorem NextJobRunID_spec :
    (∀ s : String, s ≠ "" → s.data.all isDecimalDigit = true →
      decimalValue s + 1 < 2 ^ 63 →
      NextJobRunID s = some (toString (decimalValue s + 1)))
  ∧ NextJobRunID "" = some "0"
  ∧ (∀ s : String, s ≠ "" → parseInt64 s = none → NextJobRunID s = none) := by
  refine ⟨?_, by decide, ?_⟩
  · intro s hne hdig hlt
    have hdne : s.data ≠ [] := fun h => hne (String.ext (by simp [h]))
    have hlen : s.length ≠ 0 := by
      intro h
      exact hdne (List.length_eq_zero.mp h)
    cases hd : s.data with
    | nil => exact absurd hd hdne
    | cons c rest =>
      have hdig2 : isDecimalDigit c = true ∧ rest.all isDecimalDigit = true := by
        rw [hd, List.all_cons, Bool.and_eq_true] at hdig
        exact hdig
      have hcneg : c ≠ '-' := by
        intro h
        rw [h] at hdig2
        exact absurd hdig2.1 (by decide)
      have hcpos : c ≠ '+' := by
        intro h
        rw [h] at hdig2
        exact absurd hdig2.1 (by decide)
      have hfold : (c :: rest).foldl (fun a ch => a * 10 + (ch.toNat - 48)) 0
          = decimalValue s := by rw [decimalValue, hd]
      have hparse : parseInt64 s = some ((decimalValue s : Nat) : Int) := by
        rw [parseInt64, hd]
        show (if c = '-' then
            match parseUintDigits rest with
            | none => none
            | some n => if n > 2 ^ 63 then none else some (-(n : Int))
          else if c = '+' then
            match parseUintDigits rest with
            | none => none
            | some n => if n ≥ 2 ^ 63 then none else some ((n : Int))
          else
            match parseUintDigits (c :: rest) with
            | none => none
            | some n => if n ≥ 2 ^ 63 then none else some ((n : Int)))
          = some ((decimalValue s : Nat) : Int)
        rw [if_neg hcneg, if_neg hcpos]
        rw [parseUintDigits, if_neg (by simp), if_pos (by rw [← hd]; exact hdig)]
        rw [hfold]
        show (if decimalValue s ≥ 2 ^ 63 then none else some ((decimalValue s : Int))) = _
        rw [if_neg (by omega)]
      rw [NextJobRunID, if_neg hlen, hparse]
      show some (toString (wrapInt64 ((decimalValue s : Int) + 1)))
        = some (toString (decimalValue s + 1))
      have hwrap : wrapInt64 ((decimalValue s : Int) + 1)
          = ((decimalValue s + 1 : Nat) : Int) := by
        rw [wrapInt64]
        have h0 : (0 : Int) ≤ (decimalValue s : Int) + 1 + 2 ^ 63 := by positivity
        have h1 : (decimalValue s : Int) + 1 + 2 ^ 63 < 2 ^ 64 := by
          have : (decimalValue s : Int) + 1 < 2 ^ 63 := by exact_mod_cast hlt
          omega
        rw [Int.emod_eq_of_lt h0 h1]
        push_cast
        ring
      rw [hwrap]
      rfl
  · intro s hne hparse
    have hlen : s.length ≠ 0 := by
      intro h
      exact (fun hd => hne (String.ext (by simpa using hd)))
        (List.length_eq_zero.mp h)
    rw [NextJobRunID, if_neg hlen, hparse]

/-- Witness for C5 at a concrete id: `NextJobRunID "41" = "42"`, and a
non-numeric id aborts. -/
theorem NextJobRunID_spec_witness :
    NextJobRunID "41" = some "42" ∧ NextJobRunID "x1" = none := by
  constructor
  · have h := NextJobRunID_spec.1 "41" (by decide) (by decide) (by decide)
    rw [h]
    decide
  · exact NextJobRunID_spec.2.2 "x1" (by decide) (by decide)

/-! ## String helpers (Go `strings`/`path/filepath` as used by the
GCS client) -/

/-- Go `strings.HasSuffix`. -/
def hasSuffix (s suffix : String) : Bool :=
  suffix.data.reverse.isPrefixOf s.data.reverse

/-- Is `pat` a contiguous sublist of the second argument? -/
def listIsInfixOf (pat : List Char) : List Char → Bool
  | [] => pat.isEmpty
  | c :: t => pat.isPrefixOf (c :: t) || listIsInfixOf pat t

/-- Go `strings.Contains`. -/
def strContains (s sub : String) : Bool := listIsInfixOf sub.data s.data

/-- Go `strings.Split(s, "/")` (single-character separator). -/
def splitSlash : List Char → List (List Char)
  | [] => [[]]
  | c :: rest =>
    match splitSlash rest with
    | [] => [[c]]
    | h :: t => if c = '/' then [] :: h :: t else (c :: h) :: t

/-- `filepath.Base(filepath.Dir(name))` for the clean slash-separated
object names of this bucket: the second-to-last path component (Go
returns "." for degenerate paths). -/
def baseOfDir (name : String) : String :=
  match (splitSlash name.data).reverse with
  | _ :: p :: _ => String.mk p
  | _ => "."

/-- `strings.Split(name, "/")[2]`; Go panics when there are fewer than
three components — the fallback is unreachable on the inputs any
verified property uses. -/
def component2 (name : String) : String :=
  match splitSlash name.data with
  | _ :: _ :: p :: _ => String.mk p
  | _ => ""

/-! ## Run Resolver (`ReadJobRunFromGCS`) -/

/-- The `GCSJobRun` record built by `NewGCSJobRun` plus the fields the
resolver mutates (`SetGCSProwJobPath`, `AddGCSJunitPaths`). -/
structure GCSJobRun where
  jobGCSRootLocation : String
  jobName : String
  jobRunId : String
  gcsProwJobPath : String := ""
  gcsJunitPaths : List String := []
  deriving Repr, DecidableEq

/-- One iteration of the listing loop of `ReadJobRunFromGCS`: a
`prowjob.json` object creates the run (if needed) and sets the prow-job
path; a `junit*.xml` object with at least four path components creates
the run (if needed) and appends a junit path; everything else is
ignored. -/
def readJobRunStep (jobGCSRootLocation jobName : String)
    (jobRun : Option GCSJobRun) (name : String) : Option GCSJobRun :=
  if hasSuffix name "prowjob.json" then
    let jobRunId := baseOfDir name
    let jr := match jobRun with
      | none => ({ jobGCSRootLocation := jobGCSRootLocation, jobName := jobName,
                   jobRunId := jobRunId } : GCSJobRun)
      | some jr => jr
    some { jr with gcsProwJobPath := name }
  else if hasSuffix name ".xml" && strContains name "/junit" then
    if (splitSlash name.data).length < 4 then jobRun
    else
      let jobRunId := component2 name
      let jr := match jobRun with
        | none => ({ jobGCSRootLocation := jobGCSRootLocation, jobName := jobName,
                     jobRunId := jobRunId } : GCSJobRun)
        | some jr => jr
      some { jr with gcsJunitPaths := jr.gcsJunitPaths ++ [name] }
  else jobRun

/-- The `for { attrs, err := it.Next(); ... }` loop over the bounded
listing. -/
def readJobRunLoop (root jobName : String) :
    List String → Option GCSJobRun → Option GCSJobRun
  | [], acc => acc
  | n :: rest, acc => readJobRunLoop root jobName rest (readJobRunStep root jobName acc n)

/-- `ReadJobRunFromGCS`: the bounded listing
`[root/jobRunID, root/NextJobRunID(jobRunID))` is modelled by
`objectNames`; a listing error (surfaced as a non-nil `it.Next` error
in Go) is outside the claims and not modelled.  After the loop, a
missing prow-job path yields the explicit not-found `(nil, nil)`
(`Except.ok none`); otherwise the prow-job content is eagerly fetched
(`fetchProwJob` models `jobRun.GetProwJob`), and a fetch failure is a
hard error. -/
def ReadJobRunFromGCS (jobGCSRootLocation jobName jobRunID : String)
    (objectNames : List String) (fetchProwJob : Except String Unit) :
    Except String (Option GCSJobRun) :=
  match readJobRunLoop jobGCSRootLocation jobName objectNames none with
  | none => Except.ok none
  | some jr =>
    if jr.gcsProwJobPath.length = 0 then Except.ok none
    else
      match fetchProwJob with
      | Except.error e => Except.error
          ("failed to get prowjob for " ++ jobName ++ "/" ++ jobRunID ++ ": " ++ e)
      | Except.ok _ => Except.ok (some jr)

lemma hasSuffix_prowjob_length_ne_zero {n : String}
    (h : hasSuffix n "prowjob.json" = true) : n.length ≠ 0 := by
  intro hlen
  have hd : n.data = [] := List.length_eq_zero.mp hlen
  have : n = "" := String.ext (by simpa using hd)
  rw [this] at h
  exact absurd h (by decide)

lemma readJobRunStep_path_nonempty (root jobName : String) (jr : GCSJobRun) (n : String)
    (h : jr.gcsProwJobPath.length ≠ 0) :
    ∃ jr2, readJobRunStep root jobName (some jr) n = some jr2 ∧
      jr2.gcsProwJobPath.length ≠ 0 := by
  rw [readJobRunStep]
  by_cases hp : hasSuffix n "prowjob.json" = true
  · rw [if_pos hp]
    exact ⟨_, rfl, hasSuffix_prowjob_length_ne_zero hp⟩
  · rw [if_neg hp]
    by_cases hj : (hasSuffix n ".xml" && strContains n "/junit") = true
    · rw [if_pos hj]
      by_cases hl : (splitSlash n.data).length < 4
      · rw [if_pos hl]
        exact ⟨jr, rfl, h⟩
      · rw [if_neg hl]
        exact ⟨_, rfl, h⟩
    · rw [if_neg hj]
      exact ⟨jr, rfl, h⟩

lemma readJobRunLoop_path_nonempty (root jobName : String) :
    ∀ (names : List String) (jr : GCSJobRun),
      jr.gcsProwJobPath.length ≠ 0 →
      ∃ jr2, readJobRunLoop root jobName names (some jr) = some jr2 ∧
        jr2.gcsProwJobPath.length ≠ 0 := by
  intro names
  induction names with
  | nil => intro jr h; exact ⟨jr, rfl, h⟩
  | cons n rest ih =>
    intro jr h
    obtain ⟨jr2, hstep, h2⟩ := readJobRunStep_path_nonempty root jobName jr n h
    obtain ⟨jr3, hloop, h3⟩ := ih jr2 h2
    exact ⟨jr3, by rw [readJobRunLoop, hstep]; exact hloop, h3⟩

lemma readJobRunLoop_finds_prowjob (root jobName : String) :
    ∀ (names : List String) (acc : Option GCSJobRun),
      (∃ n ∈ names, hasSuffix n "prowjob.json" = true) →
      ∃ jr, readJobRunLoop root jobName names acc = some jr ∧
        jr.gcsProwJobPath.length ≠ 0 := by
  intro names
  induction names with
  | nil => intro acc h; exact absurd h (by simp)
  | cons n rest ih =>
    intro acc h
    by_cases hp : hasSuffix n "prowjob.json" = true
    · have hstep : ∃ jr2, readJobRunStep root jobName acc n = some jr2 ∧
          jr2.gcsProwJobPath.length ≠ 0 := by
        rw [readJobRunStep, if_pos hp]
        cases acc with
        | none => exact ⟨_, rfl, hasSuffix_prowjob_length_ne_zero hp⟩
        | some jr => exact ⟨_, rfl, hasSuffix_prowjob_length_ne_zero hp⟩
      obtain ⟨jr2, hstep2, h2⟩ := hstep
      obtain ⟨jr3, hloop, h3⟩ := readJobRunLoop_path_nonempty root jobName rest jr2 h2
      exact ⟨jr3, by rw [readJobRunLoop, hstep2]; exact hloop, h3⟩
    · obtain ⟨m, hm, hms⟩ := h
      have hm' : m ∈ rest := by
        cases hm with
        | head => exact absurd hms hp
        | tail _ h => exact h
      exact (by rw [readJobRunLoop]; exact ih _ ⟨m, hm', hms⟩)

lemma readJobRunStep_no_prowjob (root jobName : String) (acc : Option GCSJobRun) (n : String)
    (hp : hasSuffix n "prowjob.json" = false)
    (hacc : ∀ jr, acc = some jr → jr.gcsProwJobPath.length = 0) :
    ∀ jr2, readJobRunStep root jobName acc n = some jr2 → jr2.gcsProwJobPath.length = 0 := by
  intro jr2 h2
  rw [readJobRunStep, if_neg (by rw [hp]; exact Bool.false_ne_true)] at h2
  by_cases hj : (hasSuffix n ".xml" && strContains n "/junit") = true
  · rw [if_pos hj] at h2
    by_cases hl : (splitSlash n.data).length < 4
    · rw [if_pos hl] at h2
      exact hacc jr2 h2
    · rw [if_neg hl] at h2
      cases acc with
      | none =>
        simp only [Option.some.injEq] at h2
        rw [← h2]
        rfl
      | some jr =>
        simp only [Option.some.injEq] at h2
        rw [← h2]
        exact hacc jr rfl
  · rw [if_neg hj] at h2
    exact hacc jr2 h2

lemma readJobRunLoop_no_prowjob (root jobName : String) :
    ∀ (names : List String) (acc : Option GCSJobRun),
      (∀ n ∈ names, hasSuffix n "prowjob.json" = false) →
      (∀ jr, acc = some jr → jr.gcsProwJobPath.length = 0) →
      ∀ jr2, readJobRunLoop root jobName names acc = some jr2 →
        jr2.gcsProwJobPath.length = 0 := by
  intro names
  induction names with
  | nil => intro acc _ hacc jr2 h2; exact hacc jr2 h2
  | cons n rest ih =>
    intro acc hno hacc jr2 h2
    rw [readJobRunLoop] at h2
    exact ih _ (fun m hm => hno m (List.mem_cons_of_mem n hm))
      (readJobRunStep_no_prowjob root jobName acc n (hno n (List.mem_cons_self n rest)) hacc)
      jr2 h2

/-- C6: the resolver returns the explicit not-found `(nil, nil)` exactly
when the bounded listing has no `prowjob.json` object — including when
junit test-result files were found — and when a `prowjob.json` is
present the descriptor is eagerly fetched: a fetch failure is a hard
error, success returns the run.  The concrete junit-only listing also
yields not-found. -/
theorem ReadJobRunFromGCS_spec :
    (∀ (root jobName jobRunID : String) (objectNames : List String)
        (fetch : Except String Unit),
      (∀ n ∈ objectNames, hasSuffix n "prowjob.json" = false) →
      ReadJobRunFromGCS root jobName jobRunID objectNames fetch = Except.ok none)
  ∧ (∀ (root jobName jobRunID : String) (objectNames : List String)
        (fetch : Except String Unit),
      (∃ n ∈ objectNames, hasSuffix n "prowjob.json" = true) →
      (∀ e, fetch = Except.error e →
          ∃ msg, ReadJobRunFromGCS root jobName jobRunID objectNames fetch =
            Except.error msg)
      ∧ (fetch = Except.ok () →
          ∃ jr, ReadJobRunFromGCS root jobName jobRunID objectNames fetch =
            Except.ok (some jr)))
  ∧ ReadJobRunFromGCS "logs/j" "j" "1"
      ["logs/j/1/artifacts/junit/junit_suite.xml"] (Except.ok ()) = Except.ok none := by
  refine ⟨?_, ?_, by rfl⟩
  · intro root jobName jobRunID objectNames fetch hno
    cases hloop : readJobRunLoop root jobName objectNames none with
    | none => simp [ReadJobRunFromGCS, hloop]
    | some jr =>
      have hz := readJobRunLoop_no_prowjob root jobName objectNames none hno
        (fun jr h => by cases h) jr hloop
      simp [ReadJobRunFromGCS, hloop, hz]
  · intro root jobName jobRunID objectNames fetch hyes
    obtain ⟨jr, hloop, hne⟩ := readJobRunLoop_finds_prowjob root jobName objectNames none hyes
    constructor
    · intro e hfe
      simp only [ReadJobRunFromGCS, hloop, hfe, if_neg hne]
      exact ⟨_, rfl⟩
    · intro hok
      simp only [ReadJobRunFromGCS, hloop, hok, if_neg hne]
      exact ⟨jr, rfl⟩

/-- Witness for C6 at concrete listings: a listing with only a build
log resolves to not-found; a listing with a `prowjob.json` whose fetch
fails yields a hard error. -/
theorem ReadJobRunFromGCS_spec_witness :
    ReadJobRunFromGCS "logs/j" "j" "1" ["logs/j/1/build-log.txt"] (Except.ok ())
      = Except.ok none
    ∧ ∃ msg, ReadJobRunFromGCS "logs/j" "j" "1" ["logs/j/1/prowjob.json"]
        (Except.error "boom") = Except.error msg := by
  constructor
  · exact ReadJobRunFromGCS_spec.1 "logs/j" "j" "1" ["logs/j/1/build-log.txt"]
      (Except.ok ()) (by decide)
  · exact (ReadJobRunFromGCS_spec.2.1 "logs/j" "j" "1" ["logs/j/1/prowjob.json"]
      (Except.error "boom") ⟨"logs/j/1/prowjob.json", by decide, by decide⟩).1 "boom" rfl

/-! ## Cursor Walker (`ListJobRunNamesOlderThanFourHours`) -/

/-- One listed object: name plus creation time (nanoseconds, as Go
`time.Time`/`Duration` arithmetic). -/
structure GCSObjectAttrs where
  name : String
  created : Int
  deriving Repr, DecidableEq

def nsPerHour : Int := 3600 * 1000000000

/-- Byte-lexicographic `≤` on names (GCS listing order; ASCII). -/
def charListLe : List Char → List Char → Bool
  | [], _ => true
  | _ :: _, [] => false
  | a :: as, b :: bs =>
    if a.toNat < b.toNat then true
    else if b.toNat < a.toNat then false
    else charListLe as bs

def strLe (a b : String) : Bool := charListLe a.data b.data

/-- The collaborator listing: every object of the bucket whose name is
`≥` the start offset, in the bucket's (lexicographic) order.  `alls` is
the full object list under the `logs/<job>` prefix. -/
def listFrom (alls : List GCSObjectAttrs) (offset : String) : List GCSObjectAttrs :=
  alls.filter (fun o => strLe offset o.name)

/-- The `query.StartOffset` of the first listing issued by
`ListJobRunNamesOlderThanFourHours`: the source pins the run id
`1475614363518767104` (the `startingID`-based offset is commented out),
so the caller-supplied starting id is ignored. -/
def initialStartOffset (jobName startingID : String) : String :=
  "logs/" ++ jobName ++ "/" ++ "1475614363518767104"

/-- C8 counterexample: the first listing query does not start at
`logs/<job>/<startingID>`; it starts at the pinned key, identically for
two different starting ids. -/
theorem initialStartOffset_counterexample :
    initialStartOffset "job" "5" ≠ "logs/job/5"
    ∧ initialStartOffset "job" "5" = initialStartOffset "job" "7"
    ∧ initialStartOffset "job" "5" = "logs/job/1475614363518767104" := by
  refine ⟨by decide, rfl, by decide⟩

/-- C8 (amended): the initial listing offset ignores the caller's
starting id entirely — it is the pinned key
`logs/<job>/1475614363518767104` for every starting id. -/
theorem initialStartOffset_spec :
    (∀ jobName startingID startingID2 : String,
      initialStartOffset jobName startingID = initialStartOffset jobName startingID2)
    ∧ (∀ startingID : String,
        initialStartOffset "j" startingID = "logs/j/1475614363518767104") := by
  exact ⟨fun _ _ _ => rfl, fun _ => rfl⟩

/-- The outcome of classifying one listed object: ignore it and read
the next one, fast-forward the cursor to `logs/<job>/<nid>`, emit a run
id and fast-forward, or panic (`NextJobRunID` on a non-numeric id). -/
inductive WalkAction : Type where
  | skip
  | forward (nid : String)
  | emit (runId nid : String)
  | crash
  deriving Repr, DecidableEq

/-- The classification of one object by the producer goroutine of
`ListJobRunNamesOlderThanFourHours`, mirroring the source: objects
strictly older than 17h fast-forward at the first `.json` name (the
`prowjob.json` case of the switch is dead code since `.json` matches
first) and are otherwise ignored; objects strictly younger than 4h
fast-forward at `build-log.txt` or `.json` names; objects in between
emit their run id at the `prowjob.json` marker and are otherwise
ignored.  `latest-build.txt` names are always ignored in the two
fast-forward bands. -/
def walkerStep (now : Int) (o : GCSObjectAttrs) : WalkAction :=
  if 1 * 17 * nsPerHour < now - o.created then
    if hasSuffix o.name "latest-build.txt" then .skip
    else if hasSuffix o.name ".json" then
      match NextJobRunID (component2 o.name) with
      | none => .crash
      | some nid => .forward nid
    else if hasSuffix o.name "prowjob.json" then
      match NextJobRunID (baseOfDir o.name) with
      | none => .crash
      | some nid => .forward nid
    else .skip
  else if now - o.created < 4 * nsPerHour then
    if hasSuffix o.name "latest-build.txt" then .skip
    else if hasSuffix o.name "build-log.txt" then
      match NextJobRunID (component2 o.name) with
      | none => .crash
      | some nid => .forward nid
    else if hasSuffix o.name ".json" then
      match NextJobRunID (component2 o.name) with
      | none => .crash
      | some nid => .forward nid
    else if hasSuffix o.name "prowjob.json" then
      match NextJobRunID (baseOfDir o.name) with
      | none => .crash
      | some nid => .forward nid
    else .skip
  else
    if hasSuffix o.name "prowjob.json" then
      match NextJobRunID (baseOfDir o.name) with
      | none => .crash
      | some nid => .emit (baseOfDir o.name) nid
    else .skip

/-- The producer goroutine of `ListJobRunNamesOlderThanFourHours`.  One
fuel unit is one `it.Next()` iteration; `(trace, false)` means fuel ran
out (the Go loop may genuinely run forever, see the counterexample) or
`NextJobRunID` panicked, `(trace, true)` a normal completion
(`iterator.Done`).  Each fast-forward re-issues the listing at
`logs/<job>/<nid>`, exactly as the source resets `query.StartOffset`
and calls `bkt.Objects` again. -/
def walkerGo (alls : List GCSObjectAttrs) (now : Int) (jobName : String) :
    Nat → List GCSObjectAttrs → List String → List String × Bool
  | 0, _, acc => (acc.reverse, false)
  | _ + 1, [], acc => (acc.reverse, true)
  | fuel + 1, o :: rest, acc =>
    match walkerStep now o with
    | .skip => walkerGo alls now jobName fuel rest acc
    | .forward nid =>
      walkerGo alls now jobName fuel
        (listFrom alls ("logs/" ++ jobName ++ "/" ++ nid)) acc
    | .emit runId nid =>
      walkerGo alls now jobName fuel
        (listFrom alls ("logs/" ++ jobName ++ "/" ++ nid)) (runId :: acc)
    | .crash => (acc.reverse, false)

/-- `ListJobRunNamesOlderThanFourHours`: the emitted run-id stream (the
values sent on `jobRunProcessingCh`, in order), with the completion
flag. -/
def ListJobRunNamesOlderThanFourHours (alls : List GCSObjectAttrs) (now : Int)
    (jobName startingID : String) (fuel : Nat) : List String × Bool :=
  walkerGo alls now jobName fuel (listFrom alls (initialStartOffset jobName startingID)) []

/-- Candidate-band runs "9" and "10" (ages 10h): run "10" sorts before
the pinned initial offset and run "9" after it, and the decimal
successor of "9" sorts before "9". -/
def cexObjects : List GCSObjectAttrs :=
  [{ name := "logs/j/10/prowjob.json", created := -(10 * nsPerHour) },
   { name := "logs/j/9/prowjob.json", created := -(10 * nsPerHour) }]

/-- C7 counterexample: on a listing whose candidate-band run ids have
different digit lengths, the walker emits run ids repeatedly (here
`9, 10, 9, 10, 9` and the loop never terminates), violating both
"never emits the same run identifier twice" and "in ascending order";
it also misses candidates sorted below the pinned initial offset. -/
theorem ListJobRunNamesOlderThanFourHours_counterexample :
    (ListJobRunNamesOlderThanFourHours cexObjects 0 "j" "0" 5).1
      = ["9", "10", "9", "10", "9"]
    ∧ ¬ (ListJobRunNamesOlderThanFourHours cexObjects 0 "j" "0" 5).1.Nodup := by
  constructor
  · decide
  · decide

/-! ### Order lemmas for the byte-lexicographic comparators -/

/-- Byte-lexicographic `<` on names. -/
def charListLt : List Char → List Char → Bool
  | [], [] => false
  | [], _ :: _ => true
  | _ :: _, [] => false
  | a :: as, b :: bs =>
    if a.toNat < b.toNat then true
    else if b.toNat < a.toNat then false
    else charListLt as bs

lemma charListLe_refl (l : List Char) : charListLe l l = true := by
  induction l with
  | nil => rfl
  | cons c t ih =>
    rw [charListLe, if_neg (lt_irrefl _), if_neg (lt_irrefl _)]
    exact ih

lemma charListLt_irrefl (l : List Char) : charListLt l l = false := by
  induction l with
  | nil => rfl
  | cons c t ih =>
    rw [charListLt, if_neg (lt_irrefl _), if_neg (lt_irrefl _)]
    exact ih

lemma charListLe_trans : ∀ {a b c : List Char}, charListLe a b = true →
    charListLe b c = true → charListLe a c = true := by
  intro a
  induction a with
  | nil => intro b c _ _; rfl
  | cons x xs ih =>
    intro b c h1 h2
    cases b with
    | nil => exact absurd h1 (by rw [charListLe]; exact Bool.false_ne_true)
    | cons y ys =>
      cases c with
      | nil => exact absurd h2 (by rw [charListLe]; exact Bool.false_ne_true)
      | cons z zs =>
        rw [charListLe] at h1 h2 ⊢
        by_cases hxy : x.toNat < y.toNat
        · by_cases hyz : y.toNat < z.toNat
          · rw [if_pos (by omega)]
          · by_cases hzy : z.toNat < y.toNat
            · rw [if_neg hyz, if_pos hzy] at h2
              exact absurd h2 Bool.false_ne_true
            · rw [if_pos (by omega)]
        · by_cases hyx : y.toNat < x.toNat
          · rw [if_neg hxy, if_pos hyx] at h1
            exact absurd h1 Bool.false_ne_true
          · by_cases hyz : y.toNat < z.toNat
            · rw [if_pos (by omega)]
            · by_cases hzy : z.toNat < y.toNat
              · rw [if_neg hyz, if_pos hzy] at h2
                exact absurd h2 Bool.false_ne_true
              · rw [if_neg hxy, if_neg hyx] at h1
                rw [if_neg hyz, if_neg hzy] at h2
                rw [if_neg (by omega), if_neg (by omega)]
                exact ih h1 h2

lemma charListLt_of_le_of_lt : ∀ {a b c : List Char}, charListLe a b = true →
    charListLt b c = true → charListLt a c = true := by
  intro a
  induction a with
  | nil =>
    intro b c _ h2
    cases b with
    | nil => exact h2
    | cons y ys =>
      cases c with
      | nil => exact absurd h2 (by rw [charListLt]; exact Bool.false_ne_true)
      | cons z zs => rfl
  | cons x xs ih =>
    intro b c h1 h2
    cases b with
    | nil => exact absurd h1 (by rw [charListLe]; exact Bool.false_ne_true)
    | cons y ys =>
      cases c with
      | nil => exact absurd h2 (by rw [charListLt]; exact Bool.false_ne_true)
      | cons z zs =>
        rw [charListLe] at h1
        rw [charListLt] at h2 ⊢
        by_cases hxy : x.toNat < y.toNat
        · by_cases hyz : y.toNat < z.toNat
          · rw [if_pos (by omega)]
          · by_cases hzy : z.toNat < y.toNat
            · rw [if_neg hyz, if_pos hzy] at h2
              exact absurd h2 Bool.false_ne_true
            · rw [if_pos (by omega)]
        · by_cases hyx : y.toNat < x.toNat
          · rw [if_neg hxy, if_pos hyx] at h1
            exact absurd h1 Bool.false_ne_true
          · by_cases hyz : y.toNat < z.toNat
            · rw [if_pos (by omega)]
            · by_cases hzy : z.toNat < y.toNat
              · rw [if_neg hyz, if_pos hzy] at h2
                exact absurd h2 Bool.false_ne_true
              · rw [if_neg hxy, if_neg hyx] at h1
                rw [if_neg hyz, if_neg hzy] at h2
                rw [if_neg (by omega), if_neg (by omega)]
                exact ih h1 h2

lemma charListLe_of_lt : ∀ {a b : List Char}, charListLt a b = true →
    charListLe a b = true := by
  intro a
  induction a with
  | nil => intro b _; rfl
  | cons x xs ih =>
    intro b h
    cases b with
    | nil => exact absurd h (by rw [charListLt]; exact Bool.false_ne_true)
    | cons y ys =>
      rw [charListLt] at h
      rw [charListLe]
      by_cases hxy : x.toNat < y.toNat
      · rw [if_pos hxy]
      · by_cases hyx : y.toNat < x.toNat
        · rw [if_neg hxy, if_pos hyx] at h
          exact absurd h Bool.false_ne_true
        · rw [if_neg hxy, if_neg hyx] at h
          rw [if_neg hxy, if_neg hyx]
          exact ih h

lemma charListLe_eq_false_iff : ∀ {a b : List Char},
    charListLe a b = false ↔ charListLt b a = true := by
  intro a
  induction a with
  | nil =>
    intro b
    constructor
    · intro h
      rw [charListLe] at h
      exact absurd h (by simp)
    · intro h
      cases b with
      | nil => exact absurd h (by rw [charListLt]; exact Bool.false_ne_true)
      | cons y ys => exact absurd h (by rw [charListLt]; exact Bool.false_ne_true)
  | cons x xs ih =>
    intro b
    cases b with
    | nil =>
      constructor
      · intro _; rfl
      · intro _; rfl
    | cons y ys =>
      rw [charListLe, charListLt]
      by_cases hxy : x.toNat < y.toNat
      · rw [if_pos hxy, if_neg (by omega), if_pos hxy]
        simp
      · by_cases hyx : y.toNat < x.toNat
        · rw [if_neg hxy, if_pos hyx, if_pos hyx]
          simp
        · rw [if_neg hxy, if_neg hyx, if_neg hyx, if_neg hxy]
          exact ih


lemma charListLe_append_right : ∀ {u v : List Char} (w : List Char),
    charListLe u v = true → charListLe u (v ++ w) = true := by
  intro u
  induction u with
  | nil => intro v w _; rfl
  | cons x xs ih =>
    intro v w h
    cases v with
    | nil => exact absurd h (by rw [charListLe]; exact Bool.false_ne_true)
    | cons y ys =>
      rw [charListLe] at h
      rw [List.cons_append, charListLe]
      by_cases hxy : x.toNat < y.toNat
      · rw [if_pos hxy]
      · by_cases hyx : y.toNat < x.toNat
        · rw [if_neg hxy, if_pos hyx] at h
          exact absurd h Bool.false_ne_true
        · rw [if_neg hxy, if_neg hyx] at h
          rw [if_neg hxy, if_neg hyx]
          exact ih w h

lemma charListLe_strip : ∀ (x a b : List Char),
    charListLe (x ++ a) (x ++ b) = charListLe a b := by
  intro x
  induction x with
  | nil => intro a b; rfl
  | cons c t ih =>
    intro a b
    rw [List.cons_append, List.cons_append, charListLe,
      if_neg (lt_irrefl _), if_neg (lt_irrefl _)]
    exact ih a b

lemma charListLt_slash : ∀ {a b : List Char} (w : List Char),
    (∀ c ∈ b, ('/' : Char).toNat < c.toNat) → charListLt a b = true →
    charListLt (a ++ '/' :: w) b = true := by
  intro a
  induction a with
  | nil =>
    intro b w hb h
    cases b with
    | nil => exact absurd h (by rw [charListLt]; exact Bool.false_ne_true)
    | cons y ys =>
      rw [List.nil_append, charListLt, if_pos (hb y (List.mem_cons_self y ys))]
  | cons x xs ih =>
    intro b w hb h
    cases b with
    | nil => exact absurd h (by rw [charListLt]; exact Bool.false_ne_true)
    | cons y ys =>
      rw [charListLt] at h
      rw [List.cons_append, charListLt]
      by_cases hxy : x.toNat < y.toNat
      · rw [if_pos hxy]
      · by_cases hyx : y.toNat < x.toNat
        · rw [if_neg hxy, if_pos hyx] at h
          exact absurd h Bool.false_ne_true
        · rw [if_neg hxy, if_neg hyx] at h
          rw [if_neg hxy, if_neg hyx]
          exact ih w (fun c hc => hb c (List.mem_cons_of_mem y hc)) h

/-! ### Object-name decomposition lemmas -/

/-- The canonical object name `logs/<job>/<runId>/<rest>`. -/
def nameOf (jobName runId rest : String) : String :=
  "logs/" ++ jobName ++ "/" ++ runId ++ "/" ++ rest

lemma data_append (a b : String) : (a ++ b).data = a.data ++ b.data := by
  cases a
  cases b
  rfl

lemma mk_data (s : String) : String.mk s.data = s := by
  cases s
  rfl

lemma nameOf_data (j rid r : String) :
    (nameOf j rid r).data =
      "logs/".data ++ j.data ++ '/' :: (rid.data ++ '/' :: r.data) := by
  simp [nameOf, data_append]

lemma offset_data (j nid : String) :
    ("logs/" ++ j ++ "/" ++ nid).data = "logs/".data ++ j.data ++ '/' :: nid.data := by
  simp [data_append]

lemma strLe_offset_nameOf (j rid r nid : String) :
    strLe ("logs/" ++ j ++ "/" ++ nid) (nameOf j rid r)
      = charListLe nid.data (rid.data ++ '/' :: r.data) := by
  rw [strLe]
  have h1 : ("logs/" ++ j ++ "/" ++ nid).data
      = ("logs/".data ++ j.data ++ ['/']) ++ nid.data := by
    simp [data_append]
  have h2 : (nameOf j rid r).data
      = ("logs/".data ++ j.data ++ ['/']) ++ (rid.data ++ '/' :: r.data) := by
    simp [nameOf, data_append]
  rw [h1, h2, charListLe_strip]

lemma strLe_offset_nameOf_true (j rid r nid : String)
    (h : charListLe nid.data rid.data = true) :
    strLe ("logs/" ++ j ++ "/" ++ nid) (nameOf j rid r) = true := by
  rw [strLe_offset_nameOf]
  exact charListLe_append_right _ h

lemma strLe_offset_nameOf_false (j rid r nid : String)
    (hslash : ∀ c ∈ nid.data, ('/' : Char).toNat < c.toNat)
    (h : charListLt rid.data nid.data = true) :
    strLe ("logs/" ++ j ++ "/" ++ nid) (nameOf j rid r) = false := by
  rw [strLe_offset_nameOf]
  exact charListLe_eq_false_iff.mpr (charListLt_slash _ hslash h)

lemma splitSlash_ne_nil : ∀ l : List Char, splitSlash l ≠ [] := by
  intro l
  induction l with
  | nil => simp [splitSlash]
  | cons c t ih =>
    rw [splitSlash]
    cases h : splitSlash t with
    | nil => exact absurd h ih
    | cons a b => by_cases hc : c = '/' <;> simp [hc]

lemma splitSlash_append : ∀ (u v : List Char),
    splitSlash (u ++ '/' :: v) = splitSlash u ++ splitSlash v := by
  intro u
  induction u with
  | nil =>
    intro v
    cases hv : splitSlash v with
    | nil => exact absurd hv (splitSlash_ne_nil v)
    | cons h t => simp [splitSlash, hv]
  | cons c u' ih =>
    intro v
    rw [List.cons_append, splitSlash, ih v]
    cases hu : splitSlash u' with
    | nil => exact absurd hu (splitSlash_ne_nil u')
    | cons h t =>
      by_cases hc : c = '/' <;> simp [splitSlash, hu, hc]

lemma splitSlash_no_slash : ∀ l : List Char, '/' ∉ l → splitSlash l = [l] := by
  intro l
  induction l with
  | nil => intro _; rfl
  | cons c t ih =>
    intro h
    have hc : c ≠ '/' := fun hc => h (hc ▸ List.mem_cons_self c t)
    rw [splitSlash, ih (fun hm => h (List.mem_cons_of_mem c hm))]
    simp [hc]

lemma splitSlash_nameOf (j rid r : String) (hj : '/' ∉ j.data) (hr : '/' ∉ rid.data) :
    splitSlash (nameOf j rid r).data
      = "logs".data :: j.data :: rid.data :: splitSlash r.data := by
  have hlogs : (nameOf j rid r).data
      = "logs".data ++ '/' :: (j.data ++ '/' :: (rid.data ++ '/' :: r.data)) := by
    rw [nameOf_data]
    simp
  rw [hlogs, splitSlash_append, splitSlash_append, splitSlash_append,
    splitSlash_no_slash _ (by decide), splitSlash_no_slash _ hj,
    splitSlash_no_slash _ hr]
  rfl

lemma component2_nameOf (j rid r : String) (hj : '/' ∉ j.data) (hr : '/' ∉ rid.data) :
    component2 (nameOf j rid r) = rid := by
  rw [component2, splitSlash_nameOf j rid r hj hr]

lemma baseOfDir_nameOf_prow (j rid : String) (hj : '/' ∉ j.data) (hr : '/' ∉ rid.data) :
    baseOfDir (nameOf j rid "prowjob.json") = rid := by
  rw [baseOfDir, splitSlash_nameOf j rid _ hj hr, splitSlash_no_slash _ (by decide)]
  simp only [List.reverse_cons, List.reverse_nil, List.nil_append, List.append_assoc,
    List.cons_append]

lemma hasSuffix_iff (s p : String) : hasSuffix s p = true ↔ p.data <:+ s.data := by
  rw [hasSuffix, List.isPrefixOf_iff_prefix, List.reverse_prefix]

lemma str_append_assoc (a b c : String) : (a ++ b) ++ c = a ++ (b ++ c) := by
  apply String.ext
  simp [data_append, List.append_assoc]

lemma hasSuffix_append_self (a p : String) : hasSuffix (a ++ p) p = true :=
  (hasSuffix_iff _ _).mpr ⟨a.data, (data_append a p).symm⟩

lemma nameOf_eq_append (j rid r : String) :
    nameOf j rid r = ("logs/" ++ j ++ "/" ++ rid ++ "/") ++ r := rfl

lemma hasSuffix_nameOf_prow (j rid : String) :
    hasSuffix (nameOf j rid "prowjob.json") "prowjob.json" = true := by
  rw [nameOf_eq_append]
  exact hasSuffix_append_self _ _

lemma hasSuffix_trans_json {s : String} (h : hasSuffix s "prowjob.json" = true) :
    hasSuffix s ".json" = true := by
  rw [hasSuffix_iff] at h ⊢
  exact List.IsSuffix.trans (by decide) h

lemma hasSuffix_getLast {s p : String} (h : hasSuffix s p = true) (hp : p.data ≠ []) :
    s.data.getLast? = p.data.getLast? := by
  obtain ⟨t, ht⟩ := (hasSuffix_iff s p).mp h
  rw [← ht]
  exact List.getLast?_append_of_ne_nil t hp

lemma hasSuffix_prow_not_latest {s : String} (h : hasSuffix s "prowjob.json" = true) :
    hasSuffix s "latest-build.txt" = false := by
  cases hl : hasSuffix s "latest-build.txt" with
  | false => rfl
  | true =>
    have h1 := hasSuffix_getLast h (by decide)
    have h2 := hasSuffix_getLast hl (by decide)
    rw [h1] at h2
    exact absurd h2 (by decide)

lemma hasSuffix_prow_not_buildlog {s : String} (h : hasSuffix s "prowjob.json" = true) :
    hasSuffix s "build-log.txt" = false := by
  cases hl : hasSuffix s "build-log.txt" with
  | false => rfl
  | true =>
    have h1 := hasSuffix_getLast h (by decide)
    have h2 := hasSuffix_getLast hl (by decide)
    rw [h1] at h2
    exact absurd h2 (by decide)

/-! ### The amended Cursor Walker specification -/

/-- One run's objects: its id, the (shared) creation time, and the
rest-paths of the objects listed before and after the run-root
`prowjob.json` marker. -/
structure RunBlock where
  runId : String
  created : Int
  pre : List String
  post : List String

def blockFiles (jobName : String) (b : RunBlock) : List GCSObjectAttrs :=
  b.pre.map (fun r => { name := nameOf jobName b.runId r, created := b.created })
  ++ [{ name := nameOf jobName b.runId "prowjob.json", created := b.created }]
  ++ b.post.map (fun r => { name := nameOf jobName b.runId r, created := b.created })

def blocksObjects (jobName : String) (bs : List RunBlock) : List GCSObjectAttrs :=
  (bs.map (blockFiles jobName)).flatten

/-- The candidate age band: neither strictly older than 17h nor
strictly younger than 4h. -/
def candidateBand (now created : Int) : Bool :=
  !(decide (1 * 17 * nsPerHour < now - created)) &&
  !(decide (now - created < 4 * nsPerHour))

/-- Constraints on one block: a slash-free run id, and no `pre` object
masquerading as a run-metadata marker (only the run-root `prowjob.json`
may end in `prowjob.json`). -/
def GoodBlock (j : String) (b : RunBlock) : Prop :=
  '/' ∉ b.runId.data ∧
  (∀ r ∈ b.pre, hasSuffix (nameOf j b.runId r) "prowjob.json" = false)

/-- The cursor-monotonicity conditions of the amended claim: blocks are
listed in ascending id order, every id is at least `lo` (the pinned
initial offset id at the top level), and each id's decimal successor is
lexicographically above the id and at most the next block's id —
exactly what holds for equal-length ids that do not overflow their
digit count, and what fails in the counterexample. -/
def GoodChain (j : String) : String → List RunBlock → Prop
  | _, [] => True
  | lo, b :: bs =>
    GoodBlock j b ∧ charListLe lo.data b.runId.data = true ∧
    ∃ nid, NextJobRunID b.runId = some nid ∧
      charListLt b.runId.data nid.data = true ∧
      (∀ c ∈ nid.data, ('/' : Char).toNat < c.toNat) ∧
      GoodChain j nid bs

lemma blockFiles_names (j : String) (b : RunBlock) :
    ∀ o ∈ blockFiles j b, ∃ r, o.name = nameOf j b.runId r := by
  intro o ho
  rw [blockFiles] at ho
  rcases List.mem_append.mp ho with h1 | h2
  · rcases List.mem_append.mp h1 with h3 | h4
    · obtain ⟨r, _, rfl⟩ := List.mem_map.mp h3
      exact ⟨r, rfl⟩
    · rw [List.mem_singleton] at h4
      rw [h4]
      exact ⟨"prowjob.json", rfl⟩
  · obtain ⟨r, _, rfl⟩ := List.mem_map.mp h2
    exact ⟨r, rfl⟩

lemma listFrom_blocksObjects_ge (j nid : String) (bs : List RunBlock)
    (h : ∀ b ∈ bs, charListLe nid.data b.runId.data = true) :
    listFrom (blocksObjects j bs) ("logs/" ++ j ++ "/" ++ nid) = blocksObjects j bs := by
  rw [listFrom, List.filter_eq_self]
  intro o ho
  obtain ⟨l, hl, hol⟩ := List.mem_flatten.mp ho
  obtain ⟨b, hb, rfl⟩ := List.mem_map.mp hl
  obtain ⟨r, hr⟩ := blockFiles_names j b o hol
  rw [hr]
  exact strLe_offset_nameOf_true j b.runId r nid (h b hb)

lemma listFrom_blocksObjects_lt (j nid : String) (bs : List RunBlock)
    (hsg : ∀ c ∈ nid.data, ('/' : Char).toNat < c.toNat)
    (h : ∀ b ∈ bs, charListLt b.runId.data nid.data = true) :
    listFrom (blocksObjects j bs) ("logs/" ++ j ++ "/" ++ nid) = [] := by
  rw [listFrom, List.filter_eq_nil_iff]
  intro o ho
  obtain ⟨l, hl, hol⟩ := List.mem_flatten.mp ho
  obtain ⟨b, hb, rfl⟩ := List.mem_map.mp hl
  obtain ⟨r, hr⟩ := blockFiles_names j b o hol
  rw [hr, strLe_offset_nameOf_false j b.runId r nid hsg (h b hb)]
  exact Bool.false_ne_true

lemma blocksObjects_append (j : String) (bs1 bs2 : List RunBlock) :
    blocksObjects j (bs1 ++ bs2) = blocksObjects j bs1 ++ blocksObjects j bs2 := by
  rw [blocksObjects, blocksObjects, blocksObjects, List.map_append, List.flatten_append]

lemma listFrom_split (j nid : String) (bs1 bs2 : List RunBlock)
    (hsg : ∀ c ∈ nid.data, ('/' : Char).toNat < c.toNat)
    (h1 : ∀ b ∈ bs1, charListLt b.runId.data nid.data = true)
    (h2 : ∀ b ∈ bs2, charListLe nid.data b.runId.data = true) :
    listFrom (blocksObjects j (bs1 ++ bs2)) ("logs/" ++ j ++ "/" ++ nid)
      = blocksObjects j bs2 := by
  rw [blocksObjects_append, listFrom, List.filter_append, ← listFrom, ← listFrom,
    listFrom_blocksObjects_lt j nid bs1 hsg h1,
    listFrom_blocksObjects_ge j nid bs2 h2, List.nil_append]

lemma GoodChain_ids_ge (j : String) :
    ∀ (bs : List RunBlock) (lo : String), GoodChain j lo bs →
      ∀ b ∈ bs, charListLe lo.data b.runId.data = true := by
  intro bs
  induction bs with
  | nil => intro lo _ b hb; exact absurd hb (List.not_mem_nil b)
  | cons b0 rest ih =>
    intro lo hch b hb
    obtain ⟨_, hle, nid, _, hlt, _, hch'⟩ := hch
    cases hb with
    | head => exact hle
    | tail _ htail =>
      have hlonid : charListLe lo.data nid.data = true :=
        charListLe_of_lt (charListLt_of_le_of_lt hle hlt)
      exact charListLe_trans hlonid (ih nid hch' b htail)

lemma candidateBand_false_iff (now created : Int) :
    candidateBand now created = false ↔
      (1 * 17 * nsPerHour < now - created ∨ now - created < 4 * nsPerHour) := by
  constructor
  · intro h
    by_cases h1 : 1 * 17 * nsPerHour < now - created
    · exact Or.inl h1
    · by_cases h2 : now - created < 4 * nsPerHour
      · exact Or.inr h2
      · rw [candidateBand, decide_eq_false h1, decide_eq_false h2] at h
        simp at h
  · intro h
    rcases h with h1 | h2
    · rw [candidateBand, decide_eq_true h1]
      rfl
    · rw [candidateBand, decide_eq_true h2]
      simp

lemma candidateBand_true_iff (now created : Int) :
    candidateBand now created = true ↔
      (¬ 1 * 17 * nsPerHour < now - created ∧ ¬ now - created < 4 * nsPerHour) := by
  simp [candidateBand]

lemma walkerStep_not_candidate_pre (now created : Int) (j rid r nid : String)
    (hj : '/' ∉ j.data) (hr : '/' ∉ rid.data)
    (hnid : NextJobRunID rid = some nid)
    (hcand : candidateBand now created = false) :
    walkerStep now ⟨nameOf j rid r, created⟩ = .skip ∨
    walkerStep now ⟨nameOf j rid r, created⟩ = .forward nid := by
  rw [walkerStep]
  simp only []
  rcases (candidateBand_false_iff now created).mp hcand with hold | hyoung
  · rw [if_pos hold]
    by_cases hl : hasSuffix (nameOf j rid r) "latest-build.txt" = true
    · rw [if_pos hl]
      left
      rfl
    · rw [if_neg hl]
      by_cases hjn : hasSuffix (nameOf j rid r) ".json" = true
      · rw [if_pos hjn, component2_nameOf j rid r hj hr, hnid]
        right
        rfl
      · rw [if_neg hjn]
        have hpw : ¬ hasSuffix (nameOf j rid r) "prowjob.json" = true := by
          intro hpv
          exact hjn (hasSuffix_trans_json hpv)
        rw [if_neg hpw]
        left
        rfl
  · have hnotold : ¬ 1 * 17 * nsPerHour < now - created := by
      simp only [nsPerHour] at hyoung ⊢
      omega
    rw [if_neg hnotold, if_pos hyoung]
    by_cases hl : hasSuffix (nameOf j rid r) "latest-build.txt" = true
    · rw [if_pos hl]
      left
      rfl
    · rw [if_neg hl]
      by_cases hbl : hasSuffix (nameOf j rid r) "build-log.txt" = true
      · rw [if_pos hbl, component2_nameOf j rid r hj hr, hnid]
        right
        rfl
      · rw [if_neg hbl]
        by_cases hjn : hasSuffix (nameOf j rid r) ".json" = true
        · rw [if_pos hjn, component2_nameOf j rid r hj hr, hnid]
          right
          rfl
        · rw [if_neg hjn]
          have hpw : ¬ hasSuffix (nameOf j rid r) "prowjob.json" = true := by
            intro hpv
            exact hjn (hasSuffix_trans_json hpv)
          rw [if_neg hpw]
          left
          rfl

lemma walkerStep_not_candidate_prow (now created : Int) (j rid nid : String)
    (hj : '/' ∉ j.data) (hr : '/' ∉ rid.data)
    (hnid : NextJobRunID rid = some nid)
    (hcand : candidateBand now created = false) :
    walkerStep now ⟨nameOf j rid "prowjob.json", created⟩ = .forward nid := by
  have hprow := hasSuffix_nameOf_prow j rid
  rw [walkerStep]
  simp only []
  rcases (candidateBand_false_iff now created).mp hcand with hold | hyoung
  · rw [if_pos hold, if_neg (by rw [hasSuffix_prow_not_latest hprow]; exact Bool.false_ne_true),
      if_pos (hasSuffix_trans_json hprow), component2_nameOf j rid _ hj hr, hnid]
  · have hnotold : ¬ 1 * 17 * nsPerHour < now - created := by
      simp only [nsPerHour] at hyoung ⊢
      omega
    rw [if_neg hnotold, if_pos hyoung,
      if_neg (by rw [hasSuffix_prow_not_latest hprow]; exact Bool.false_ne_true),
      if_neg (by rw [hasSuffix_prow_not_buildlog hprow]; exact Bool.false_ne_true),
      if_pos (hasSuffix_trans_json hprow), component2_nameOf j rid _ hj hr, hnid]

lemma walkerStep_candidate_pre (now created : Int) (name : String)
    (hcand : candidateBand now created = true)
    (hnp : hasSuffix name "prowjob.json" = false) :
    walkerStep now ⟨name, created⟩ = .skip := by
  obtain ⟨hnold, hnyoung⟩ := (candidateBand_true_iff now created).mp hcand
  rw [walkerStep]
  simp only []
  rw [if_neg hnold, if_neg hnyoung, if_neg (by rw [hnp]; exact Bool.false_ne_true)]

lemma walkerStep_candidate_prow (now created : Int) (j rid nid : String)
    (hj : '/' ∉ j.data) (hr : '/' ∉ rid.data)
    (hnid : NextJobRunID rid = some nid)
    (hcand : candidateBand now created = true) :
    walkerStep now ⟨nameOf j rid "prowjob.json", created⟩ = .emit rid nid := by
  obtain ⟨hnold, hnyoung⟩ := (candidateBand_true_iff now created).mp hcand
  rw [walkerStep]
  simp only []
  rw [if_neg hnold, if_neg hnyoung, if_pos (hasSuffix_nameOf_prow j rid),
    baseOfDir_nameOf_prow j rid hj hr, hnid]

lemma walkerGo_mono (alls : List GCSObjectAttrs) (now : Int) (j : String) :
    ∀ (fuel : Nat) (it : List GCSObjectAttrs) (acc res : List String),
      walkerGo alls now j fuel it acc = (res, true) →
      walkerGo alls now j (fuel + 1) it acc = (res, true) := by
  intro fuel
  induction fuel with
  | zero =>
    intro it acc res h
    rw [walkerGo] at h
    simp at h
  | succ f ih =>
    intro it acc res h
    cases it with
    | nil =>
      rw [walkerGo] at h ⊢
      exact h
    | cons o rest =>
      rw [walkerGo] at h ⊢
      cases hstep : walkerStep now o with
      | skip =>
        simp only [hstep] at h ⊢
        exact ih _ _ _ h
      | forward nid =>
        simp only [hstep] at h ⊢
        exact ih _ _ _ h
      | emit runId nid =>
        simp only [hstep] at h ⊢
        exact ih _ _ _ h
      | crash =>
        simp only [hstep] at h
        simp at h

lemma walkerGo_mono_le (alls : List GCSObjectAttrs) (now : Int) (j : String)
    {fuel fuel' : Nat} (hle : fuel ≤ fuel') {it : List GCSObjectAttrs}
    {acc res : List String}
    (h : walkerGo alls now j fuel it acc = (res, true)) :
    walkerGo alls now j fuel' it acc = (res, true) := by
  induction fuel' with
  | zero =>
    have : fuel = 0 := Nat.le_zero.mp hle
    rw [← this]
    exact h
  | succ f ih =>
    rcases Nat.lt_or_ge fuel (f + 1) with hlt | hge
    · exact walkerGo_mono alls now j f _ _ _ (ih (Nat.lt_succ_iff.mp hlt))
    · have : fuel = f + 1 := le_antisymm hle hge
      rw [← this]
      exact h

lemma charListLt_of_lt_of_le : ∀ {a b c : List Char}, charListLt a b = true →
    charListLe b c = true → charListLt a c = true := by
  intro a
  induction a with
  | nil =>
    intro b c h1 h2
    cases b with
    | nil => exact absurd h1 (by rw [charListLt]; exact Bool.false_ne_true)
    | cons y ys =>
      cases c with
      | nil => exact absurd h2 (by rw [charListLe]; exact Bool.false_ne_true)
      | cons z zs => rfl
  | cons x xs ih =>
    intro b c h1 h2
    cases b with
    | nil => exact absurd h1 (by rw [charListLt]; exact Bool.false_ne_true)
    | cons y ys =>
      cases c with
      | nil => exact absurd h2 (by rw [charListLe]; exact Bool.false_ne_true)
      | cons z zs =>
        rw [charListLt] at h1
        rw [charListLe] at h2
        rw [charListLt]
        by_cases hxy : x.toNat < y.toNat
        · by_cases hyz : y.toNat < z.toNat
          · rw [if_pos (by omega)]
          · by_cases hzy : z.toNat < y.toNat
            · rw [if_neg hyz, if_pos hzy] at h2
              exact absurd h2 Bool.false_ne_true
            · rw [if_pos (by omega)]
        · by_cases hyx : y.toNat < x.toNat
          · rw [if_neg hxy, if_pos hyx] at h1
            exact absurd h1 Bool.false_ne_true
          · by_cases hyz : y.toNat < z.toNat
            · rw [if_pos (by omega)]
            · by_cases hzy : z.toNat < y.toNat
              · rw [if_neg hyz, if_pos hzy] at h2
                exact absurd h2 Bool.false_ne_true
              · rw [if_neg hxy, if_neg hyx] at h1
                rw [if_neg hyz, if_neg hzy] at h2
                rw [if_neg (by omega), if_neg (by omega)]
                exact ih h1 h2

lemma walker_block (alls : List GCSObjectAttrs) (now : Int) (j : String)
    (hj : '/' ∉ j.data) (b : RunBlock) (hgb : GoodBlock j b)
    (nid : String) (hnid : NextJobRunID b.runId = some nid)
    (T : List GCSObjectAttrs)
    (hT : listFrom alls ("logs/" ++ j ++ "/" ++ nid) = T)
    (acc res : List String)
    (hnext : ∃ fuel, walkerGo alls now j fuel T
        (if candidateBand now b.created then b.runId :: acc else acc) = (res, true)) :
    ∃ fuel, walkerGo alls now j fuel (blockFiles j b ++ T) acc = (res, true) := by
  obtain ⟨hslash, hpreconstraint⟩ := hgb
  have hassoc : blockFiles j b ++ T =
      b.pre.map (fun r => ({ name := nameOf j b.runId r, created := b.created } : GCSObjectAttrs))
        ++ (({ name := nameOf j b.runId "prowjob.json", created := b.created } : GCSObjectAttrs)
            :: (b.post.map (fun r => { name := nameOf j b.runId r, created := b.created }) ++ T)) := by
    rw [blockFiles]
    simp [List.append_assoc]
  rw [hassoc]
  cases hcand : candidateBand now b.created with
  | false =>
    rw [hcand] at hnext
    simp only [Bool.false_eq_true, if_false] at hnext
    obtain ⟨fN, hfN⟩ := hnext
    have hmarker : ∃ f, walkerGo alls now j f
        (({ name := nameOf j b.runId "prowjob.json", created := b.created } : GCSObjectAttrs)
          :: (b.post.map (fun r => { name := nameOf j b.runId r, created := b.created }) ++ T))
        acc = (res, true) := by
      refine ⟨fN + 1, ?_⟩
      rw [walkerGo, walkerStep_not_candidate_prow now b.created j b.runId nid hj hslash hnid hcand]
      exact (show walkerGo alls now j fN (listFrom alls ("logs/" ++ j ++ "/" ++ nid)) acc
          = (res, true) by rw [hT]; exact hfN)
    have hpre : ∀ pres : List String,
        ∃ f, walkerGo alls now j f
          (pres.map (fun r => ({ name := nameOf j b.runId r, created := b.created } : GCSObjectAttrs))
            ++ (({ name := nameOf j b.runId "prowjob.json", created := b.created } : GCSObjectAttrs)
              :: (b.post.map (fun r => { name := nameOf j b.runId r, created := b.created }) ++ T)))
          acc = (res, true) := by
      intro pres
      induction pres with
      | nil =>
        rw [List.map_nil, List.nil_append]
        exact hmarker
      | cons r pres ihp =>
        obtain ⟨f0, hf0⟩ := ihp
        rcases walkerStep_not_candidate_pre now b.created j b.runId r nid hj hslash hnid hcand
          with hsk | hfw
        · refine ⟨f0 + 1, ?_⟩
          rw [List.map_cons, List.cons_append, walkerGo, hsk]
          exact hf0
        · refine ⟨fN + 1, ?_⟩
          rw [List.map_cons, List.cons_append, walkerGo, hfw]
          exact (show walkerGo alls now j fN (listFrom alls ("logs/" ++ j ++ "/" ++ nid)) acc
              = (res, true) by rw [hT]; exact hfN)
    exact hpre b.pre
  | true =>
    rw [hcand] at hnext
    simp only [if_true] at hnext
    obtain ⟨fN, hfN⟩ := hnext
    have hmarker : ∃ f, walkerGo alls now j f
        (({ name := nameOf j b.runId "prowjob.json", created := b.created } : GCSObjectAttrs)
          :: (b.post.map (fun r => { name := nameOf j b.runId r, created := b.created }) ++ T))
        acc = (res, true) := by
      refine ⟨fN + 1, ?_⟩
      rw [walkerGo, walkerStep_candidate_prow now b.created j b.runId nid hj hslash hnid hcand]
      exact (show walkerGo alls now j fN (listFrom alls ("logs/" ++ j ++ "/" ++ nid))
          (b.runId :: acc) = (res, true) by rw [hT]; exact hfN)
    have hpre : ∀ pres : List String,
        (∀ r ∈ pres, hasSuffix (nameOf j b.runId r) "prowjob.json" = false) →
        ∃ f, walkerGo alls now j f
          (pres.map (fun r => ({ name := nameOf j b.runId r, created := b.created } : GCSObjectAttrs))
            ++ (({ name := nameOf j b.runId "prowjob.json", created := b.created } : GCSObjectAttrs)
              :: (b.post.map (fun r => { name := nameOf j b.runId r, created := b.created }) ++ T)))
          acc = (res, true) := by
      intro pres
      induction pres with
      | nil =>
        intro _
        rw [List.map_nil, List.nil_append]
        exact hmarker
      | cons r pres ihp =>
        intro hc
        obtain ⟨f0, hf0⟩ := ihp (fun r' hr' => hc r' (List.mem_cons_of_mem r hr'))
        refine ⟨f0 + 1, ?_⟩
        rw [List.map_cons, List.cons_append, walkerGo,
          walkerStep_candidate_pre now b.created _ hcand (hc r (List.mem_cons_self r pres))]
        exact hf0
    exact hpre b.pre hpreconstraint

lemma blocksObjects_cons (j : String) (b : RunBlock) (bs : List RunBlock) :
    blocksObjects j (b :: bs) = blockFiles j b ++ blocksObjects j bs := by
  rw [blocksObjects, blocksObjects, List.map_cons, List.flatten_cons]

lemma walker_chain (now : Int) (j : String) (hj : '/' ∉ j.data) :
    ∀ (bs2 bs1 : List RunBlock) (lo : String),
      (∀ b ∈ bs1, charListLt b.runId.data lo.data = true) →
      (∀ c ∈ lo.data, ('/' : Char).toNat < c.toNat) →
      GoodChain j lo bs2 →
      ∀ acc : List String,
        ∃ fuel, walkerGo (blocksObjects j (bs1 ++ bs2)) now j fuel
          (listFrom (blocksObjects j (bs1 ++ bs2)) ("logs/" ++ j ++ "/" ++ lo)) acc
          = (acc.reverse ++
              (bs2.filter (fun b => candidateBand now b.created)).map RunBlock.runId,
             true) := by
  intro bs2
  induction bs2 with
  | nil =>
    intro bs1 lo hlt hsg _ acc
    rw [List.append_nil, listFrom_blocksObjects_lt j lo bs1 hsg hlt]
    refine ⟨1, ?_⟩
    rw [walkerGo]
    simp
  | cons b bs2' ih =>
    intro bs1 lo hlt hsg hch acc
    obtain ⟨hgb, hle, nid, hnid, hltn, hsgn, hch'⟩ := hch
    have hge : ∀ b' ∈ b :: bs2', charListLe lo.data b'.runId.data = true :=
      GoodChain_ids_ge j (b :: bs2') lo ⟨hgb, hle, nid, hnid, hltn, hsgn, hch'⟩
    have hlist : listFrom (blocksObjects j (bs1 ++ b :: bs2')) ("logs/" ++ j ++ "/" ++ lo)
        = blocksObjects j (b :: bs2') := listFrom_split j lo bs1 (b :: bs2') hsg hlt hge
    have hlt' : ∀ b' ∈ bs1 ++ [b], charListLt b'.runId.data nid.data = true := by
      intro b' hb'
      rcases List.mem_append.mp hb' with h1 | h2
      · have h3 : charListLe b'.runId.data b.runId.data :=
          charListLe_trans (charListLe_of_lt (hlt b' h1)) hle
        exact charListLt_of_le_of_lt h3 hltn
      · rw [List.mem_singleton] at h2
        rw [h2]
        exact hltn
    have hge' : ∀ b' ∈ bs2', charListLe nid.data b'.runId.data = true :=
      GoodChain_ids_ge j bs2' nid hch'
    have hea : bs1 ++ b :: bs2' = (bs1 ++ [b]) ++ bs2' := by simp
    have hT : listFrom (blocksObjects j (bs1 ++ b :: bs2')) ("logs/" ++ j ++ "/" ++ nid)
        = blocksObjects j bs2' := by
      rw [hea]
      exact listFrom_split j nid (bs1 ++ [b]) bs2' hsgn hlt' hge'
    have hnext0 := ih (bs1 ++ [b]) nid hlt' hsgn hch'
      (if candidateBand now b.created then b.runId :: acc else acc)
    rw [← hea] at hnext0
    rw [hT] at hnext0
    have hblock := walker_block (blocksObjects j (bs1 ++ b :: bs2')) now j hj b hgb nid hnid
      (blocksObjects j bs2') hT acc _ hnext0
    rw [hlist, blocksObjects_cons]
    have hres : (if candidateBand now b.created then b.runId :: acc else acc).reverse ++
        (bs2'.filter (fun b => candidateBand now b.created)).map RunBlock.runId
        = acc.reverse ++
          ((b :: bs2').filter (fun b => candidateBand now b.created)).map RunBlock.runId := by
      rw [List.filter_cons]
      cases hcand : candidateBand now b.created with
      | false => simp
      | true => simp
    rw [← hres]
    exact hblock

lemma GoodChain_pairwise (j : String) :
    ∀ (bs : List RunBlock) (lo : String), GoodChain j lo bs →
      bs.Pairwise (fun a b => charListLt a.runId.data b.runId.data = true) := by
  intro bs
  induction bs with
  | nil => intro lo _; exact List.Pairwise.nil
  | cons b rest ih =>
    intro lo hch
    obtain ⟨_, _, nid, hnid, hltn, hsgn, hch'⟩ := hch
    refine List.Pairwise.cons ?_ (ih nid hch')
    intro b' hb'
    exact charListLt_of_lt_of_le hltn (GoodChain_ids_ge j rest nid hch' b' hb')

/-- C7 (amended): on a listing made of per-run blocks whose objects
share the run's age, whose run ids are slash-free and at least the
pinned initial offset id, and whose decimal successor ids respect the
listing order (as equal-length ids do — the conditions the
counterexample violates), the walker completes for all sufficiently
large iteration budgets and emits exactly the run ids whose metadata
marker lies in the candidate age band, in ascending lexicographic
order, with no id emitted twice. -/
theorem ListJobRunNamesOlderThanFourHours_spec :
    ∀ (now : Int) (jobName startingID : String) (bs : List RunBlock),
      '/' ∉ jobName.data →
      GoodChain jobName "1475614363518767104" bs →
      (∃ fuel0 : Nat, ∀ fuel, fuel0 ≤ fuel →
        ListJobRunNamesOlderThanFourHours (blocksObjects jobName bs) now jobName
            startingID fuel
          = ((bs.filter (fun b => candidateBand now b.created)).map RunBlock.runId, true))
      ∧ ((bs.filter (fun b => candidateBand now b.created)).map RunBlock.runId).Pairwise
          (fun a b => charListLt a.data b.data = true)
      ∧ ((bs.filter (fun b => candidateBand now b.created)).map RunBlock.runId).Nodup := by
  intro now j s bs hj hch
  have hchain := walker_chain now j hj bs [] "1475614363518767104"
    (fun b hb => absurd hb (List.not_mem_nil b)) (by decide) hch []
  rw [List.nil_append] at hchain
  obtain ⟨fuel0, hf0⟩ := hchain
  have hpf : ((bs.filter (fun b => candidateBand now b.created)).map RunBlock.runId).Pairwise
      (fun a b => charListLt a.data b.data = true) := by
    rw [List.pairwise_map]
    exact List.Pairwise.sublist (List.filter_sublist bs) (GoodChain_pairwise j bs _ hch)
  refine ⟨⟨fuel0, fun fuel hle => ?_⟩, hpf, ?_⟩
  · rw [ListJobRunNamesOlderThanFourHours, initialStartOffset]
    have hmono := walkerGo_mono_le (blocksObjects j bs) now j hle hf0
    simpa using hmono
  · refine hpf.imp ?_
    intro a b hlt heq
    rw [heq, charListLt_irrefl] at hlt
    exact Bool.false_ne_true hlt

/-- A single candidate-band block with a 19-digit run id above the
pinned offset id. -/
def witnessBlock : RunBlock :=
  { runId := "2000000000000000000", created := -(10 * nsPerHour), pre := [], post := [] }

/-- Witness for C7 at a concrete listing: one candidate run is emitted
exactly once and the walk completes. -/
theorem ListJobRunNamesOlderThanFourHours_spec_witness :
    ∃ fuel0 : Nat, ∀ fuel, fuel0 ≤ fuel →
      ListJobRunNamesOlderThanFourHours (blocksObjects "j" [witnessBlock]) 0 "j" "0" fuel
        = (["2000000000000000000"], true) := by
  have h := (ListJobRunNamesOlderThanFourHours_spec 0 "j" "0" [witnessBlock] (by decide)
    ⟨⟨by decide, by simp [witnessBlock]⟩, by decide, "2000000000000000001", by decide,
      by decide, by decide, trivial⟩).1
  have he : ([witnessBlock].filter (fun b => candidateBand 0 b.created)).map RunBlock.runId
      = ["2000000000000000000"] := by decide
  rw [he] at h
  exact h
